import Mathlib

/-!
Verification of the PrimeSieve core (primesieve.h): an incrementally
extensible, bit-packed, wheel-factorized segmented sieve of Eratosthenes
with forward and reverse prime iterators.

The header file declares the data layout, the index transforms, `IsPrime`,
`GrowTo`, `SmartRem`, the constructor's thread-count clamp and both
iterators in full.  The bodies of `GrowToInternal` / `ComputeToInternal` /
`ComputeInternal` (the compute kernel) live in a translation unit that is
not part of the repository snapshot; those are modelled from the
specification (see the doc comments marked "Modelled from the spec").

Machine integers (`U64`) are embedded as `Nat`, with an explicit
`% 2 ^ 64` at the places where a 64-bit wraparound is actually reachable
(the `x + 1` in the forward-iterator constructor, the `~0ULL` block-index
sentinel increment, and the `m_block - 1` of `operator++`).
-/

namespace PrimeSieve

/-- `2 ^ 64`, the modulus of the machine words. -/
def W64 : Nat := 2 ^ 64

/-- The 6-bit shift-count mask applied by the `ShiftLeft` / `ShiftRight`
wrappers and by the C++ `<<`/`>>` operators on 64-bit operands
(`i & 63`). -/
def mask6 (i : Nat) : Nat := i &&& 63

/-- 64-bit bitwise complement `~x` (for `x < 2 ^ 64`). -/
def compl64 (x : Nat) : Nat := x ^^^ (W64 - 1)

/-- `kBitsPerSeg = 3ULL * 5 * 7 * 11 * 13 * 17` (useful bits per segment). -/
def kBitsPerSeg : Nat := 3 * 5 * 7 * 11 * 13 * 17

/-- `kBlocksPerSeg = (kBitsPerSeg + 63) >> 6` (64-bit words per segment). -/
def kBlocksPerSeg : Nat := (kBitsPerSeg + 63) >>> 6

/-- `kUnusedBitsPerSeg = 64 - (kBitsPerSeg & 63)` (padding bits at the top
of each segment's word block). -/
def kUnusedBitsPerSeg : Nat := 64 - (kBitsPerSeg &&& 63)

/-- `kMaxThreads = 32`. -/
def kMaxThreads : Nat := 32

theorem kBitsPerSeg_eq : kBitsPerSeg = 255255 := by decide

theorem kBlocksPerSeg_eq : kBlocksPerSeg = 3989 := by decide

theorem kUnusedBitsPerSeg_eq : kUnusedBitsPerSeg = 41 := by decide

theorem mask6_eq_mod (i : Nat) : mask6 i = i % 64 := by
  have h : mask6 i = i &&& (2 ^ 6 - 1) := by norm_num [mask6]
  rw [h, Nat.and_pow_two_sub_one_eq_mod]

theorem compl64_lt (x : Nat) (hx : x < W64) : compl64 x < W64 := by
  have h1 : x < 2 ^ 64 := hx
  have h2 : (2 ^ 64 - 1 : Nat) < 2 ^ 64 := by norm_num
  exact Nat.xor_lt_two_pow h1 h2

theorem testBit_compl64 (x j : Nat) (hj : j < 64) :
    (compl64 x).testBit j = !x.testBit j := by
  have h : (W64 - 1).testBit j = true := by
    simp only [W64, Nat.testBit_two_pow_sub_one, decide_eq_true_eq]
    exact hj
  simp only [compl64, Nat.testBit_xor, h, Bool.xor_true]

theorem testBit_compl64_ge (x j : Nat) (hx : x < W64) (hj : 64 ≤ j) :
    (compl64 x).testBit j = false := by
  have h1 : x.testBit j = false := by
    apply Nat.testBit_lt_two_pow
    calc x < W64 := hx
    _ = 2 ^ 64 := rfl
    _ ≤ 2 ^ j := Nat.pow_le_pow_right (by norm_num) hj
  have h2 : (W64 - 1).testBit j = false := by
    simp only [W64, Nat.testBit_two_pow_sub_one, decide_eq_false_iff_not]
    omega
  simp only [compl64, Nat.testBit_xor, h1, h2, Bool.xor_false]

/-- Trial-division primality on `Nat` (executable). -/
def primeB (n : Nat) : Bool :=
  decide (2 ≤ n) && (List.range n).all fun d => decide (d < 2) || decide (n % d ≠ 0)

theorem primeB_iff (n : Nat) : primeB n = true ↔ Nat.Prime n := by
  rw [Nat.prime_def_lt']
  simp only [primeB, Bool.and_eq_true, decide_eq_true_eq, List.all_eq_true, List.mem_range,
    Bool.or_eq_true]
  constructor
  · rintro ⟨h2, hall⟩
    refine ⟨h2, fun m hm2 hmn hdvd => ?_⟩
    rcases hall m hmn with h | h
    · omega
    · exact h (Nat.mod_eq_zero_of_dvd hdvd)
  · rintro ⟨h2, hall⟩
    refine ⟨h2, fun d hdn => ?_⟩
    by_cases hd2 : d < 2
    · exact Or.inl hd2
    · exact Or.inr fun hmod => hall d (by omega) hdn (Nat.dvd_of_mod_eq_zero hmod)

/-! ## Packing a word from bits -/

/-- The number whose binary digits `0, …, n-1` are `f 0, …, f (n-1)`. -/
def wordOfBits (f : Nat → Bool) : Nat → Nat
  | 0 => 0
  | j + 1 => wordOfBits f j + (if f j then 2 ^ j else 0)

theorem wordOfBits_lt (f : Nat → Bool) (n : Nat) : wordOfBits f n < 2 ^ n := by
  induction n with
  | zero => simp [wordOfBits]
  | succ n ih =>
    have h2 : (2 : Nat) ^ (n + 1) = 2 ^ n + 2 ^ n := by ring
    by_cases h : f n <;> simp [wordOfBits, h] <;> omega

theorem testBit_wordOfBits (f : Nat → Bool) (n j : Nat) (hj : j < n) :
    (wordOfBits f n).testBit j = f j := by
  induction n with
  | zero => omega
  | succ n ih =>
    rcases Nat.lt_or_ge j n with hjn | hjn
    · by_cases h : f n
      · have hlt := wordOfBits_lt f n
        have : wordOfBits f (n + 1) = 2 ^ n + wordOfBits f n := by
          simp [wordOfBits, h]; omega
        rw [this, Nat.testBit_two_pow_add_gt hjn]
        exact ih hjn
      · simpa [wordOfBits, h] using ih hjn
    · have hjeq : j = n := by omega
      subst hjeq
      have hlt := wordOfBits_lt f j
      by_cases h : f j
      · have : wordOfBits f (j + 1) = 2 ^ j + wordOfBits f j := by
          simp [wordOfBits, h]; omega
        rw [this, Nat.testBit_two_pow_add_eq, Nat.testBit_lt_two_pow hlt]
        simp [h]
      · simp [wordOfBits, h, Nat.testBit_lt_two_pow hlt]

/-! ## The bit layout and its model

The bitmap is modelled from the spec (§3): within the computed region, the
bit for in-segment index `b` of segment `s` — representing the odd
candidate `2·(s·kBitsPerSeg + b) + 1` — is clear exactly when that
candidate is prime, and the padding bits above `kBitsPerSeg` in each
segment's `64·kBlocksPerSeg`-bit word block are always set. -/

/-- Packed bits per segment: `64 · kBlocksPerSeg` (useful plus padding). -/
def segStride : Nat := 64 * kBlocksPerSeg

theorem segStride_eq : segStride = 255296 := by decide

/-- `iBit_SegSpace` as a function of `iBit_NativeSpace`:
`i + kUnusedBitsPerSeg * (i / kBitsPerSeg)`. -/
def segSpaceOfNative (n : Nat) : Nat := n + kUnusedBitsPerSeg * (n / kBitsPerSeg)

/-- Modelled from the spec (§3, bit semantics): whether packed bit index
`i` of the (correctly computed) bitmap is set.  A useful bit is set iff
its candidate `2·(s·kBitsPerSeg + b) + 1` is not prime; a padding bit is
always set.  The compute kernel (`ComputeInternal`) that produces these
bits is not part of the repository snapshot. -/
def sieveBitSet (i : Nat) : Bool :=
  if i % segStride < kBitsPerSeg then
    !primeB (2 * ((i / segStride) * kBitsPerSeg + i % segStride) + 1)
  else
    true

/-- Modelled from the spec: word `w` of the correctly computed bitmap. -/
def sieveWord (w : Nat) : Nat :=
  wordOfBits (fun j => sieveBitSet (64 * w + j)) 64

theorem sieveWord_lt (w : Nat) : sieveWord w < W64 :=
  wordOfBits_lt _ 64

theorem testBit_sieveWord (w j : Nat) (hj : j < 64) :
    (sieveWord w).testBit j = sieveBitSet (64 * w + j) :=
  testBit_wordOfBits _ 64 j hj

theorem segSpaceOfNative_decomp (n : Nat) :
    segSpaceOfNative n = segStride * (n / kBitsPerSeg) + n % kBitsPerSeg := by
  simp only [segSpaceOfNative, segStride_eq, kBitsPerSeg_eq, kUnusedBitsPerSeg_eq]
  omega

theorem segSpaceOfNative_div (n : Nat) :
    segSpaceOfNative n / segStride = n / kBitsPerSeg := by
  rw [segSpaceOfNative_decomp]
  simp only [segStride_eq, kBitsPerSeg_eq]
  omega

theorem segSpaceOfNative_mod (n : Nat) :
    segSpaceOfNative n % segStride = n % kBitsPerSeg := by
  rw [segSpaceOfNative_decomp]
  simp only [segStride_eq, kBitsPerSeg_eq]
  omega

theorem segSpaceOfNative_strictMono : StrictMono segSpaceOfNative := by
  intro a b hab
  simp only [segSpaceOfNative, kBitsPerSeg_eq, kUnusedBitsPerSeg_eq]
  omega

/-- The native index packed at packed index `i` (inverse of
`segSpaceOfNative` on useful bits). -/
def nativeOfPacked (i : Nat) : Nat := (i / segStride) * kBitsPerSeg + i % segStride

theorem segSpaceOfNative_nativeOfPacked (i : Nat) (h : i % segStride < kBitsPerSeg) :
    segSpaceOfNative (nativeOfPacked i) = i := by
  simp only [nativeOfPacked, segSpaceOfNative, segStride_eq, kBitsPerSeg_eq,
    kUnusedBitsPerSeg_eq] at *
  omega

theorem nativeOfPacked_segSpaceOfNative (n : Nat) :
    nativeOfPacked (segSpaceOfNative n) = n := by
  simp only [nativeOfPacked, segSpaceOfNative_div, segSpaceOfNative_mod, kBitsPerSeg_eq]
  omega

/-- A clear (prime) model bit decodes: the useful bit at packed index `i`
is clear exactly when the candidate of native index `nativeOfPacked i` is
prime. -/
theorem sieveBitSet_eq_false_iff (i : Nat) :
    sieveBitSet i = false ↔
      i % segStride < kBitsPerSeg ∧ Nat.Prime (2 * nativeOfPacked i + 1) := by
  by_cases h : i % segStride < kBitsPerSeg
  · simp [sieveBitSet, h, primeB_iff, nativeOfPacked]
  · simp [sieveBitSet, h]

theorem sieveBitSet_segSpace (n : Nat) :
    sieveBitSet (segSpaceOfNative n) = !primeB (2 * n + 1) := by
  have hlt : segSpaceOfNative n % segStride < kBitsPerSeg := by
    rw [segSpaceOfNative_mod]
    exact Nat.mod_lt n (by rw [kBitsPerSeg_eq]; norm_num)
  have hn : segSpaceOfNative n / segStride * kBitsPerSeg + segSpaceOfNative n % segStride = n := by
    have h1 := nativeOfPacked_segSpaceOfNative n
    simpa [nativeOfPacked] using h1
  simp only [sieveBitSet, if_pos hlt, hn]

theorem sieveWord_and_shift (w j : Nat) (hj : j < 64) :
    (sieveWord w &&& (1 <<< j) = 0) ↔ sieveBitSet (64 * w + j) = false := by
  have h1 : (1 : Nat) <<< j = 2 ^ j := by rw [Nat.shiftLeft_eq, one_mul]
  rw [h1, Nat.and_two_pow, ← testBit_sieveWord w j hj]
  cases h : (sieveWord w).testBit j
  · simp
  · simp [Nat.pos_iff_ne_zero.mp (Nat.two_pow_pos j)]

/-! ## The iterators' recovery formula -/

/-- The expression
`(iBlock << 7) + (bit << 1) - (kUnusedBitsPerSeg << 1) * (iBlock / kBlocksPerSeg) + 1`
recovering the represented candidate from a word index and a bit-in-word
index; the forward iterator instantiates `bit` with `ctz(block)` and the
reverse iterator with `63 - clz(block)`. -/
def recoverX (iBlock bit : Nat) : Nat :=
  (iBlock <<< 7) + (bit <<< 1) - (kUnusedBitsPerSeg <<< 1) * (iBlock / kBlocksPerSeg) + 1

theorem recoverX_segSpace (n : Nat) :
    recoverX (segSpaceOfNative n / 64) (segSpaceOfNative n % 64) = 2 * n + 1 := by
  simp only [recoverX, Nat.shiftLeft_eq, segSpaceOfNative, kBitsPerSeg_eq,
    kUnusedBitsPerSeg_eq, kBlocksPerSeg_eq]
  norm_num
  omega

/-! ## The sieve container -/

/-- The observable state of a `PrimeSieve` object: the bitmap (as a map
from word index to 64-bit word value), `m_numSegsAllocated`,
`m_numSegsComputed` and `m_numThreads`. -/
structure SieveState where
  pSieve : Nat → Nat
  numSegsAllocated : Nat
  numSegsComputed : Nat
  numThreads : Nat

/-- The container invariant (spec §3): every word of the computed region
holds the correct sieve bits. -/
def WellFormed (s : SieveState) : Prop :=
  ∀ w, w < kBlocksPerSeg * s.numSegsComputed → s.pSieve w = sieveWord w

/-- Modelled from the spec (§4.2, §4.3): `GrowToInternal(newNumSegs)` is a
no-op when `numSegsComputed ≥ newNumSegs`; otherwise it reallocates if
needed, fills segments `[numSegsComputed, newNumSegs)` with correct sieve
bits and sets `numSegsComputed = newNumSegs`.  The function body is not in
the repository snapshot (only its declaration and callers are). -/
def GrowToInternal (s : SieveState) (newNumSegs : Nat) : SieveState :=
  if newNumSegs ≤ s.numSegsComputed then s
  else
    { pSieve := fun w =>
        if kBlocksPerSeg * s.numSegsComputed ≤ w ∧ w < kBlocksPerSeg * newNumSegs then
          sieveWord w
        else s.pSieve w
      numSegsAllocated := max s.numSegsAllocated newNumSegs
      numSegsComputed := newNumSegs
      numThreads := s.numThreads }

/-- `GrowTo(x)`: `if (x >= 3) GrowToInternal((x - 1) / (kBitsPerSeg << 1) + 1)`. -/
def GrowTo (s : SieveState) (x : Nat) : SieveState :=
  if 3 ≤ x then GrowToInternal s ((x - 1) / (kBitsPerSeg <<< 1) + 1) else s

/-- `IsPrime(x)`, returning the result together with the post-call state. -/
def IsPrime (s : SieveState) (x : Nat) : Bool × SieveState :=
  if x = 2 then (true, s)
  else if x &&& 1 = 0 then (false, s)
  else
    let iSeg := x / (kBitsPerSeg <<< 1)
    let s1 := if s.numSegsComputed ≤ iSeg then GrowToInternal s (iSeg + 1) else s
    let xb := (x >>> 1) + kUnusedBitsPerSeg * iSeg
    (decide (s1.pSieve (xb >>> 6) &&& (1 <<< mask6 xb) = 0), s1)

/-- `SmartRem(a, b)` (the optimized branch): take the 32-bit remainder
path when the truncation of `(a | b) >> 32` to 32 bits is zero. -/
def SmartRem (a b : Nat) : Nat :=
  if ((a ||| b) >>> 32) % 2 ^ 32 ≠ 0 then a % b
  else (a % 2 ^ 32) % (b % 2 ^ 32)

/-- The constructor
`PrimeSieve(x, numThreads) : m_numThreads(numThreads ? numThreads > kMaxThreads ? kMaxThreads : numThreads : ComputeAutoNumThreads()) { GrowTo(x); }`.
`ComputeAutoNumThreads` is a platform call (not in the snapshot); its
result is passed in as `autoNumThreads`. -/
def construct (x numThreads autoNumThreads : Nat) : SieveState :=
  GrowTo
    { pSieve := fun _ => 0
      numSegsAllocated := 0
      numSegsComputed := 0
      numThreads :=
        if numThreads ≠ 0 then
          if kMaxThreads < numThreads then kMaxThreads else numThreads
        else autoNumThreads }
    x

/-- A freshly constructed sieve with no initial computation. -/
def s0 : SieveState := construct 0 1 1

/-! ## Basic growth lemmas -/

theorem GrowToInternal_of_le {s : SieveState} {n : Nat} (h : n ≤ s.numSegsComputed) :
    GrowToInternal s n = s := by
  simp [GrowToInternal, h]

theorem GrowToInternal_numSegsComputed (s : SieveState) (n : Nat) :
    (GrowToInternal s n).numSegsComputed = max s.numSegsComputed n := by
  by_cases h : n ≤ s.numSegsComputed
  · simp [GrowToInternal, h]
  · simp [GrowToInternal, h]
    omega

theorem GrowToInternal_numThreads (s : SieveState) (n : Nat) :
    (GrowToInternal s n).numThreads = s.numThreads := by
  by_cases h : n ≤ s.numSegsComputed <;> simp [GrowToInternal, h]

theorem le_GrowToInternal_numSegsComputed (s : SieveState) (n : Nat) :
    s.numSegsComputed ≤ (GrowToInternal s n).numSegsComputed := by
  rw [GrowToInternal_numSegsComputed]; omega

theorem WellFormed_GrowToInternal {s : SieveState} (hs : WellFormed s) (n : Nat) :
    WellFormed (GrowToInternal s n) := by
  by_cases h : n ≤ s.numSegsComputed
  · rw [GrowToInternal_of_le h]; exact hs
  · intro w hw
    simp only [GrowToInternal, if_neg h] at hw ⊢
    by_cases hw2 : kBlocksPerSeg * s.numSegsComputed ≤ w ∧ w < kBlocksPerSeg * n
    · simp [hw2]
    · have : w < kBlocksPerSeg * s.numSegsComputed := by
        push_neg at hw2
        rcases Nat.lt_or_ge w (kBlocksPerSeg * s.numSegsComputed) with h1 | h1
        · exact h1
        · exact absurd (hw2 h1) (by omega)
      simp [this, hw2]
      exact hs w this

theorem WellFormed_s0 : WellFormed s0 := by
  intro w hw
  simp only [s0, construct, GrowTo] at hw
  norm_num at hw

theorem GrowTo_numThreads (s : SieveState) (x : Nat) :
    (GrowTo s x).numThreads = s.numThreads := by
  by_cases h : 3 ≤ x <;> simp [GrowTo, h, GrowToInternal_numThreads]

theorem kBitsPerSeg_shl1 : kBitsPerSeg <<< 1 = 510510 := by decide

theorem segSpace_div64_lt (n m : Nat) (h : n / kBitsPerSeg < m) :
    segSpaceOfNative n / 64 < kBlocksPerSeg * m := by
  rw [segSpaceOfNative_decomp]
  simp only [segStride_eq, kBitsPerSeg_eq, kBlocksPerSeg_eq] at *
  omega

/-- The value of `IsPrime` on the non-special path, with the `let`
bindings of the definition expanded. -/
theorem IsPrime_odd_eq (s : SieveState) (x : Nat) (hx2 : x ≠ 2) (hand : ¬(x &&& 1 = 0)) :
    IsPrime s x =
      (decide ((if s.numSegsComputed ≤ x / (kBitsPerSeg <<< 1) then
            GrowToInternal s (x / (kBitsPerSeg <<< 1) + 1) else s).pSieve
              (((x >>> 1) + kUnusedBitsPerSeg * (x / (kBitsPerSeg <<< 1))) >>> 6) &&&
            (1 <<< mask6 ((x >>> 1) + kUnusedBitsPerSeg * (x / (kBitsPerSeg <<< 1)))) = 0),
        if s.numSegsComputed ≤ x / (kBitsPerSeg <<< 1) then
          GrowToInternal s (x / (kBitsPerSeg <<< 1) + 1) else s) := by
  rw [IsPrime, if_neg hx2, if_neg hand]

/-- For odd `x`, `IsPrime` reads exactly the model bit of `x`'s candidate
position, so it returns the trial-division primality of `x`. -/
theorem isPrime_odd {s : SieveState} (hs : WellFormed s) (x : Nat) (hx : x % 2 = 1) :
    (IsPrime s x).1 = primeB x := by
  have hx2 : x ≠ 2 := by omega
  have hand : ¬(x &&& 1 = 0) := by rw [Nat.and_one_is_mod]; omega
  have hdiv2 : x >>> 1 = x / 2 := by
    rw [Nat.shiftRight_eq_div_pow, Nat.pow_one]
  have hiSeg : x / (kBitsPerSeg <<< 1) = x / 2 / kBitsPerSeg := by
    rw [Nat.div_div_eq_div_mul, kBitsPerSeg_shl1, kBitsPerSeg_eq]
  have hfst : (IsPrime s x).1 =
      decide ((if s.numSegsComputed ≤ x / 2 / kBitsPerSeg then
          GrowToInternal s (x / 2 / kBitsPerSeg + 1) else s).pSieve
            (segSpaceOfNative (x / 2) >>> 6) &&&
          (1 <<< mask6 (segSpaceOfNative (x / 2))) = 0) := by
    rw [IsPrime_odd_eq s x hx2 hand, hiSeg, hdiv2]
    rfl
  rw [hfst]
  set g := segSpaceOfNative (x / 2) with hgdef
  set s1 : SieveState :=
    if s.numSegsComputed ≤ x / 2 / kBitsPerSeg then
      GrowToInternal s (x / 2 / kBitsPerSeg + 1) else s with hs1def
  have hs1wf : WellFormed s1 := by
    rw [hs1def]
    by_cases h : s.numSegsComputed ≤ x / 2 / kBitsPerSeg
    · simpa [h] using WellFormed_GrowToInternal hs (x / 2 / kBitsPerSeg + 1)
    · simpa [h] using hs
  have hs1comp : x / 2 / kBitsPerSeg < s1.numSegsComputed := by
    rw [hs1def]
    by_cases h : s.numSegsComputed ≤ x / 2 / kBitsPerSeg
    · rw [if_pos h, GrowToInternal_numSegsComputed]
      omega
    · rw [if_neg h]
      omega
  have hg64 : g >>> 6 = g / 64 := by
    rw [Nat.shiftRight_eq_div_pow]
  have hblk : g / 64 < kBlocksPerSeg * s1.numSegsComputed := by
    rw [hgdef]; exact segSpace_div64_lt (x / 2) _ hs1comp
  have hword : s1.pSieve (g >>> 6) = sieveWord (g / 64) := by
    rw [hg64]; exact hs1wf _ hblk
  have hiff : (s1.pSieve (g >>> 6) &&& (1 <<< mask6 g) = 0) ↔ primeB x = true := by
    rw [hword, mask6_eq_mod, sieveWord_and_shift (g / 64) (g % 64)
      (Nat.mod_lt g (by norm_num)), Nat.div_add_mod g 64, hgdef, sieveBitSet_segSpace,
      show 2 * (x / 2) + 1 = x by omega]
    simp
  cases hpb : primeB x
  · simp only [decide_eq_false_iff_not, hiff, hpb]
    simp
  · simp only [decide_eq_true_eq]
    exact hiff.mpr hpb

theorem lt_two_pow_of_or_lt {a b n : Nat} (h : a ||| b < 2 ^ n) : a < 2 ^ n := by
  apply Nat.lt_pow_two_of_testBit
  intro i hi
  have hor : (a ||| b).testBit i = false :=
    Nat.testBit_lt_two_pow (Nat.lt_of_lt_of_le h (Nat.pow_le_pow_right (by norm_num) hi))
  rw [Nat.testBit_or] at hor
  exact (Bool.or_eq_false_iff.mp hor).1

/-! ## Claims C1, C4, C5, C6, C7, C9, C10 -/

/-- C1: for every odd `x ≥ 3`, `IsPrime(x)` agrees with the trial-division
oracle (no divisor `d` with `2 ≤ d ≤ ⌊√x⌋`); moreover `IsPrime(0) = false`,
`IsPrime(1) = false`, `IsPrime(2) = true`, and `IsPrime(x) = false` for
every even `x ≥ 4`.  The sieve grows on demand, so this holds for every
odd `x` the sieve has grown to cover (here: all of them). -/
theorem claim_isPrime_matches_trial_division (s : SieveState) (hs : WellFormed s) :
    (IsPrime s 0).1 = false ∧ (IsPrime s 1).1 = false ∧ (IsPrime s 2).1 = true ∧
      (∀ x, 4 ≤ x → x % 2 = 0 → (IsPrime s x).1 = false) ∧
      (∀ x, 3 ≤ x → x % 2 = 1 →
        ((IsPrime s x).1 = true ↔ ∀ d, 2 ≤ d → d ≤ Nat.sqrt x → ¬ d ∣ x)) := by
  refine ⟨?_, ?_, ?_, ?_, ?_⟩
  · simp [IsPrime]
  · rw [isPrime_odd hs 1 (by norm_num)]
    decide
  · simp [IsPrime]
  · intro x h4 hev
    have hx2 : x ≠ 2 := by omega
    have hand : x &&& 1 = 0 := by rw [Nat.and_one_is_mod]; omega
    rw [IsPrime, if_neg hx2, if_pos hand]
  · intro x h3 hodd
    rw [isPrime_odd hs x hodd, primeB_iff, Nat.prime_def_le_sqrt]
    constructor
    · rintro ⟨-, h⟩
      exact h
    · intro h
      exact ⟨by omega, h⟩

theorem claim_isPrime_matches_trial_division_witness : (IsPrime s0 3).1 = true :=
  ((claim_isPrime_matches_trial_division s0 WellFormed_s0).2.2.2.2 3 (by norm_num)
      (by norm_num)).mpr (by
    intro d h2 h4
    have hsq : d * d ≤ 3 := Nat.le_sqrt.mp h4
    have h4d : 4 ≤ d * d := Nat.mul_le_mul h2 h2
    omega)

/-- C4 counterexample: `kUnusedBitsPerSeg` does not equal 57 (it is 41,
since `kBitsPerSeg = 255255` occupies `3989` words with `64·3989 − 255255 = 41`
spare bits). -/
theorem claim_kUnusedBits_counterexample : ¬(kUnusedBitsPerSeg = 57) := by decide

/-- C4 (amended): `kUnusedBitsPerSeg = 64·kBlocksPerSeg − kBitsPerSeg` and
this value is 41, with `kBitsPerSeg = 255255` and `kBlocksPerSeg = 3989`. -/
theorem claim_kUnusedBits_value :
    kUnusedBitsPerSeg = 64 * kBlocksPerSeg - kBitsPerSeg ∧ kUnusedBitsPerSeg = 41 ∧
      kBitsPerSeg = 255255 ∧ kBlocksPerSeg = 3989 := by decide

/-- C5: the recovery formula
`(iBlock·128) + 2·bit − 2·kUnusedBitsPerSeg·(iBlock/kBlocksPerSeg) + 1`
inverts the packed index transform: for a packed index
`i = s·kBitsPerSeg + b + kUnusedBitsPerSeg·s` with `b < kBitsPerSeg`,
`iBlock = i/64` and `bit = i mod 64`, it recovers `2·(s·kBitsPerSeg+b)+1`.
Both iterators instantiate `bit` (with `ctz(block)` resp. `63 − clz(block)`)
in this same expression `recoverX`. -/
theorem claim_recovery_formula (s b : Nat) (hb : b < kBitsPerSeg) :
    recoverX ((s * kBitsPerSeg + b + kUnusedBitsPerSeg * s) / 64)
        ((s * kBitsPerSeg + b + kUnusedBitsPerSeg * s) % 64) =
      2 * (s * kBitsPerSeg + b) + 1 := by
  have h : s * kBitsPerSeg + b + kUnusedBitsPerSeg * s =
      segSpaceOfNative (s * kBitsPerSeg + b) := by
    simp only [segSpaceOfNative, kBitsPerSeg_eq, kUnusedBitsPerSeg_eq] at hb ⊢
    omega
  rw [h, recoverX_segSpace]

theorem claim_recovery_formula_witness :
    recoverX ((1 * kBitsPerSeg + 5 + kUnusedBitsPerSeg * 1) / 64)
        ((1 * kBitsPerSeg + 5 + kUnusedBitsPerSeg * 1) % 64) =
      2 * (1 * kBitsPerSeg + 5) + 1 :=
  claim_recovery_formula 1 5 (by decide)

/-- C6: growth is idempotent — `GrowTo(x)` twice equals `GrowTo(x)` once,
`GrowTo(x)` for `x < 3` changes no state, and `GrowToInternal` is a no-op
whenever `numSegsComputed` already meets the requested count. -/
theorem claim_growth_idempotent (s : SieveState) (x : Nat) :
    GrowTo (GrowTo s x) x = GrowTo s x ∧ (x < 3 → GrowTo s x = s) ∧
      ∀ n, n ≤ s.numSegsComputed → GrowToInternal s n = s := by
  refine ⟨?_, fun h => by rw [GrowTo, if_neg (by omega)],
    fun n hn => GrowToInternal_of_le hn⟩
  by_cases h : 3 ≤ x
  · simp only [GrowTo, if_pos h]
    exact GrowToInternal_of_le (by rw [GrowToInternal_numSegsComputed]; omega)
  · simp only [GrowTo, if_neg h]

theorem claim_growth_idempotent_witness :
    GrowTo (GrowTo s0 7) 7 = GrowTo s0 7 ∧ GrowTo s0 2 = s0 ∧ GrowToInternal s0 0 = s0 :=
  ⟨(claim_growth_idempotent s0 7).1, (claim_growth_idempotent s0 2).2.1 (by norm_num),
    (claim_growth_idempotent s0 0).2.2 0 (Nat.zero_le _)⟩

/-- C7: `SmartRem(a, b) = a mod b` for all 64-bit `a`, `b` with `b ≠ 0`;
in particular the 32-bit fast path agrees with the plain 64-bit remainder. -/
theorem claim_smartRem (a b : Nat) (ha : a < W64) (hb : b < W64) (hb0 : b ≠ 0) :
    SmartRem a b = a % b := by
  rw [SmartRem]
  by_cases h : ((a ||| b) >>> 32) % 2 ^ 32 ≠ 0
  · rw [if_pos h]
  · rw [if_neg h]
    push_neg at h
    have hor : a ||| b < 2 ^ 64 := Nat.or_lt_two_pow ha hb
    have hsh : (a ||| b) >>> 32 < 2 ^ 32 := by
      rw [Nat.shiftRight_eq_div_pow, Nat.div_lt_iff_lt_mul (by norm_num)]
      calc a ||| b < 2 ^ 64 := hor
      _ = 2 ^ 32 * 2 ^ 32 := by norm_num

    have h0 : (a ||| b) >>> 32 = 0 := by
      rw [Nat.mod_eq_of_lt hsh] at h
      exact h
    have hor32 : a ||| b < 2 ^ 32 := by
      rw [Nat.shiftRight_eq_div_pow] at h0
      have h1 : a ||| b < 1 * 2 ^ 32 := by
        rw [← Nat.div_lt_iff_lt_mul (by norm_num), h0]
        norm_num
      omega
    have ha32 : a < 2 ^ 32 := lt_two_pow_of_or_lt hor32
    have hb32 : b < 2 ^ 32 := lt_two_pow_of_or_lt (by rwa [Nat.lor_comm] at hor32)
    rw [Nat.mod_eq_of_lt ha32, Nat.mod_eq_of_lt hb32]

theorem claim_smartRem_witness :
    SmartRem (2 ^ 40 + 7) 12345 = (2 ^ 40 + 7) % 12345 ∧ SmartRem 100 7 = 100 % 7 :=
  ⟨claim_smartRem _ _ (by norm_num [W64]) (by norm_num [W64]) (by norm_num),
    claim_smartRem 100 7 (by norm_num [W64]) (by norm_num [W64]) (by norm_num)⟩

/-- C9: for every even `x` (2 itself included), `IsPrime` answers from the
parity check alone: the state is returned unchanged (no growth, no
allocation, regardless of how large `x` is) and the result does not depend
on the sieve state at all. -/
theorem claim_isPrime_even_frame (s : SieveState) (x : Nat) (hx : x % 2 = 0) :
    (IsPrime s x).2 = s ∧ (IsPrime s x).1 = decide (x = 2) ∧
      ∀ s2 : SieveState, (IsPrime s2 x).1 = (IsPrime s x).1 := by
  by_cases h2 : x = 2
  · subst h2
    exact ⟨rfl, rfl, fun s2 => rfl⟩
  · have hand : x &&& 1 = 0 := by rw [Nat.and_one_is_mod]; omega
    have hval : ∀ s3 : SieveState, IsPrime s3 x = (false, s3) := fun s3 => by
      rw [IsPrime, if_neg h2, if_pos hand]
    refine ⟨by rw [hval s], by rw [hval s]; simp [h2], fun s2 => by rw [hval s2, hval s]⟩

theorem claim_isPrime_even_frame_witness :
    (IsPrime s0 4).2 = s0 ∧ (IsPrime s0 4).1 = decide (4 = 2) :=
  ⟨(claim_isPrime_even_frame s0 4 (by norm_num)).1,
    (claim_isPrime_even_frame s0 4 (by norm_num)).2.1⟩

/-- C10: with a nonzero requested thread count, the constructed sieve's
thread count is `min(numThreads, kMaxThreads)`, hence always in `[1, 32]`;
requests above 32 are silently clamped. -/
theorem claim_construct_numThreads (x numThreads autoNumThreads : Nat)
    (h : 1 ≤ numThreads) :
    (construct x numThreads autoNumThreads).numThreads = min numThreads kMaxThreads ∧
      1 ≤ (construct x numThreads autoNumThreads).numThreads ∧
      (construct x numThreads autoNumThreads).numThreads ≤ 32 := by
  have hnt : (construct x numThreads autoNumThreads).numThreads =
      if numThreads ≠ 0 then (if kMaxThreads < numThreads then kMaxThreads else numThreads)
      else autoNumThreads := by
    rw [construct, GrowTo_numThreads]
  have h0 : numThreads ≠ 0 := by omega
  rw [hnt, if_pos h0]
  simp only [kMaxThreads]
  by_cases h32 : (32 : Nat) < numThreads
  · rw [if_pos h32]
    omega
  · rw [if_neg h32]
    omega

theorem claim_construct_numThreads_witness :
    (construct 0 50 7).numThreads = min 50 kMaxThreads ∧
      1 ≤ (construct 0 50 7).numThreads ∧ (construct 0 50 7).numThreads ≤ 32 :=
  claim_construct_numThreads 0 50 7 (by norm_num)

/-! ## Hardware bit primitives

`CountTrailingZeros` (`_tzcnt_u64`) and `CountLeadingZeros` (`_lzcnt_u64`):
the stated operations on 64-bit words, returning 64 on 0. -/

/-- First set bit of `x` among `j, j+1, …` scanning `fuel` positions. -/
def findBitAux (x : Nat) : Nat → Nat → Option Nat
  | 0, _ => none
  | fuel + 1, j => if x.testBit j then some j else findBitAux x fuel (j + 1)

/-- `CountTrailingZeros` (64 for `x = 0`). -/
def ctz64 (x : Nat) : Nat := (findBitAux x 64 0).getD 64

/-- Highest set bit of `x` below `n`. -/
def hsbAux (x : Nat) : Nat → Option Nat
  | 0 => none
  | n + 1 => if x.testBit n then some n else hsbAux x n

/-- `CountLeadingZeros` (64 for `x = 0`). -/
def clz64 (x : Nat) : Nat :=
  match hsbAux x 64 with
  | some j => 63 - j
  | none => 64

theorem findBitAux_eq (x : Nat) (fuel j l : Nat) (hjl : j ≤ l) (hl : l < j + fuel)
    (hbit : x.testBit l = true) (hmin : ∀ i, j ≤ i → i < l → x.testBit i = false) :
    findBitAux x fuel j = some l := by
  induction fuel generalizing j with
  | zero => omega
  | succ fuel ih =>
    by_cases h : x.testBit j
    · have hje : j = l := by
        by_contra hne
        have := hmin j (Nat.le_refl j) (by omega)
        simp [this] at h
      subst hje
      simp [findBitAux, h]
    · have hne : j ≠ l := fun he => by
        rw [he] at h
        exact h hbit
      simp only [findBitAux, if_neg h]
      exact ih (j + 1) (by omega) (by omega) fun i h1 h2 => hmin i (by omega) h2

theorem ctz64_eq (x l : Nat) (hl : l < 64) (hbit : x.testBit l = true)
    (hmin : ∀ i, i < l → x.testBit i = false) : ctz64 x = l := by
  rw [ctz64, findBitAux_eq x 64 0 l (by omega) (by omega) hbit fun i h1 h2 => hmin i h2]
  rfl

theorem hsbAux_eq (x n l : Nat) (hl : l < n) (hbit : x.testBit l = true)
    (hmax : ∀ i, l < i → i < n → x.testBit i = false) : hsbAux x n = some l := by
  induction n with
  | zero => omega
  | succ n ih =>
    by_cases h : x.testBit n
    · have hne : n = l := by
        by_contra hne
        have := hmax n (by omega) (by omega)
        simp [this] at h
      subst hne
      simp [hsbAux, h]
    · have hne : l ≠ n := fun he => by
        rw [he] at hbit
        exact h hbit
      simp only [hsbAux, if_neg h]
      exact ih (by omega) fun i h1 h2 => hmax i h1 (by omega)

theorem clz64_eq (x l : Nat) (hl : l < 64) (hbit : x.testBit l = true)
    (hmax : ∀ i, l < i → i < 64 → x.testBit i = false) : clz64 x = 63 - l := by
  unfold clz64
  rw [hsbAux_eq x 64 l hl hbit hmax]

set_option maxRecDepth 4000 in
theorem xor63 : ∀ c, c < 64 → c ^^^ 63 = 63 - c := by decide

theorem add_w64_sub_one_mod (b : Nat) (hb0 : b ≠ 0) (hb : b < W64) :
    (b + (W64 - 1)) % W64 = b - 1 := by
  simp only [W64] at *
  omega

/-- Clearing the lowest set bit: `b &= b - 1`. -/
theorem and_sub_one_testBit (b l : Nat) (hl : b.testBit l = true)
    (hmin : ∀ i, i < l → b.testBit i = false) (j : Nat) :
    (b &&& (b - 1)).testBit j = (b.testBit j && decide (j ≠ l)) := by
  have hmod : b % 2 ^ l = 0 := by
    apply Nat.zero_of_testBit_eq_false
    intro i
    rw [Nat.testBit_mod_two_pow]
    by_cases hi : i < l
    · simp [hi, hmin i hi]
    · simp [hi]
  obtain ⟨c, hc⟩ : 2 ^ l ∣ b := Nat.dvd_of_mod_eq_zero hmod
  have hc2 : c % 2 = 1 := by
    have h1 := hl
    rw [hc, Nat.testBit_to_div_mod, Nat.mul_div_cancel_left c (Nat.two_pow_pos l),
      decide_eq_true_eq] at h1
    exact h1
  obtain ⟨q, hq⟩ : ∃ q, c = 2 * q + 1 := ⟨c / 2, by omega⟩
  have hdouble : (2 : Nat) ^ (l + 1) = 2 ^ l * 2 := by ring
  have hpos := Nat.two_pow_pos l
  have hpow : (2 : Nat) ^ l < 2 ^ (l + 1) := by omega
  have hb_eq : b = 2 ^ (l + 1) * q + 2 ^ l := by
    rw [hc, hq]
    ring
  have hb1_eq : b - 1 = 2 ^ (l + 1) * q + (2 ^ l - 1) := by
    rw [hb_eq]
    omega
  have hbits_b : ∀ i, b.testBit i =
      if i < l + 1 then (2 ^ l : Nat).testBit i else q.testBit (i - (l + 1)) := by
    intro i
    rw [hb_eq, Nat.testBit_mul_pow_two_add q hpow i]
  have hbits_b1 : ∀ i, (b - 1).testBit i =
      if i < l + 1 then (2 ^ l - 1 : Nat).testBit i else q.testBit (i - (l + 1)) := by
    intro i
    rw [hb1_eq, Nat.testBit_mul_pow_two_add q (by omega) i]
  rw [Nat.testBit_and, hbits_b j, hbits_b1 j]
  rcases Nat.lt_trichotomy j l with hj | hj | hj
  · rw [if_pos (by omega), if_pos (by omega), Nat.testBit_two_pow_of_ne (by omega)]
    simp
  · subst hj
    rw [if_pos (by omega), if_pos (by omega), Nat.testBit_two_pow_self,
      Nat.testBit_two_pow_sub_one]
    simp
  · rw [if_neg (by omega), if_neg (by omega)]
    simp [show j ≠ l by omega]

/-- Clearing the highest set bit:
`b &= ~ShiftRight(1 << 63, CountLeadingZeros(b))`. -/
theorem clear_highest_testBit (b l : Nat) (hb : b < W64) (hl64 : l < 64)
    (hl : b.testBit l = true) (hmax : ∀ i, l < i → b.testBit i = false) (j : Nat) :
    (b &&& compl64 ((2 ^ 63) >>> mask6 (clz64 b))).testBit j =
      (b.testBit j && decide (j ≠ l)) := by
  have hclz : clz64 b = 63 - l := clz64_eq b l hl64 hl fun i h1 h2 => hmax i h1
  have hm : mask6 (63 - l) = 63 - l := by
    rw [mask6_eq_mod]
    omega
  have hshift : (2 ^ 63 : Nat) >>> (63 - l) = 2 ^ l := by
    rw [Nat.shiftRight_eq_div_pow, Nat.pow_div (by omega) (by norm_num),
      show 63 - (63 - l) = l by omega]
  rw [hclz, hm, hshift, Nat.testBit_and]
  by_cases hj : j < 64
  · rw [testBit_compl64 _ _ hj]
    by_cases hje : j = l
    · subst hje
      simp [Nat.testBit_two_pow_self]
    · rw [Nat.testBit_two_pow_of_ne fun he => hje he.symm]
      simp [hje]
  · have h1 : b.testBit j = false := by
      apply Nat.testBit_lt_two_pow
      calc b < W64 := hb
      _ = 2 ^ 64 := rfl
      _ ≤ 2 ^ j := Nat.pow_le_pow_right (by norm_num) (by omega)
    simp [h1]

/-- The start mask `~0ULL << m` (computed in 64 bits). -/
theorem testBit_ones_shl (m j : Nat) (hj : j < 64) :
    (((W64 - 1) <<< m) % W64).testBit j = decide (m ≤ j) := by
  have h1 : ((W64 - 1) <<< m) % W64 = ((2 ^ 64 - 1) <<< m) % 2 ^ 64 := rfl
  rw [h1, Nat.testBit_mod_two_pow, Nat.testBit_shiftLeft, Nat.testBit_two_pow_sub_one]
  by_cases hm : m ≤ j
  · have hd : j - m < 64 := by omega
    simp [hj, hm, hd]
  · simp [hj, hm]

/-! ## Clear bits are exactly packed positions of odd primes -/

theorem sieveBitSet_eq_false_iff_prime (g : Nat) :
    sieveBitSet g = false ↔ ∃ n, g = segSpaceOfNative n ∧ Nat.Prime (2 * n + 1) := by
  constructor
  · intro h
    rw [sieveBitSet_eq_false_iff] at h
    exact ⟨nativeOfPacked g, (segSpaceOfNative_nativeOfPacked g h.1).symm, h.2⟩
  · rintro ⟨n, rfl, hp⟩
    rw [sieveBitSet_segSpace]
    simp [primeB_iff, hp]

theorem exists_prime_gt (x : Nat) : ∃ p, x < p ∧ Nat.Prime p := by
  obtain ⟨p, hp1, hp2⟩ := Nat.exists_infinite_primes (x + 1)
  exact ⟨p, by omega, hp2⟩

/-- The least prime strictly greater than `x`. -/
def leastPrimeGT (x : Nat) : Nat := Nat.find (exists_prime_gt x)

theorem leastPrimeGT_gt (x : Nat) : x < leastPrimeGT x := (Nat.find_spec (exists_prime_gt x)).1

theorem leastPrimeGT_prime (x : Nat) : Nat.Prime (leastPrimeGT x) :=
  (Nat.find_spec (exists_prime_gt x)).2

theorem leastPrimeGT_min (x p : Nat) (h1 : x < p) (h2 : Nat.Prime p) : leastPrimeGT x ≤ p :=
  Nat.find_min' (exists_prime_gt x) ⟨h1, h2⟩

theorem leastPrimeGT_odd (x : Nat) (h2 : 2 ≤ x) : leastPrimeGT x % 2 = 1 := by
  rcases (leastPrimeGT_prime x).eq_two_or_odd with h | h
  · have := leastPrimeGT_gt x
    omega
  · exact h

/-- Bridging lemma for the forward iterator: starting the scan at native
index `(x+1)/2`, the first clear bit of the model is the packed position
of `leastPrimeGT x`. -/
theorem fwd_bridge (x : Nat) (h2 : 2 ≤ x) :
    sieveBitSet (segSpaceOfNative (leastPrimeGT x / 2)) = false ∧
      segSpaceOfNative ((x + 1) / 2) ≤ segSpaceOfNative (leastPrimeGT x / 2) ∧
      (∀ h, segSpaceOfNative ((x + 1) / 2) ≤ h →
        h < segSpaceOfNative (leastPrimeGT x / 2) → sieveBitSet h = true) ∧
      2 * (leastPrimeGT x / 2) + 1 = leastPrimeGT x := by
  have hodd := leastPrimeGT_odd x h2
  have hgt := leastPrimeGT_gt x
  have hp := leastPrimeGT_prime x
  have heq : 2 * (leastPrimeGT x / 2) + 1 = leastPrimeGT x := by omega
  refine ⟨?_, ?_, ?_, heq⟩
  · exact (sieveBitSet_eq_false_iff_prime _).mpr
      ⟨leastPrimeGT x / 2, rfl, by rw [heq]; exact hp⟩
  · exact segSpaceOfNative_strictMono.monotone (by omega)
  · intro h hG hg
    by_contra hclear
    have hclear2 : sieveBitSet h = false := by
      cases hb : sieveBitSet h
      · rfl
      · exact absurd hb hclear
    obtain ⟨m, rfl, hq⟩ := (sieveBitSet_eq_false_iff_prime _).mp hclear2
    have hm1 : (x + 1) / 2 ≤ m := by
      by_contra hlt
      have hmono : segSpaceOfNative m < segSpaceOfNative ((x + 1) / 2) :=
        segSpaceOfNative_strictMono (by omega)
      omega
    have hm2 : m < leastPrimeGT x / 2 := by
      by_contra hge
      have hmono : segSpaceOfNative (leastPrimeGT x / 2) ≤ segSpaceOfNative m :=
        segSpaceOfNative_strictMono.monotone (by omega)
      omega
    have hqx : x < 2 * m + 1 := by omega
    have := leastPrimeGT_min x (2 * m + 1) hqx hq
    omega

/-- Bridging lemma for the reverse iterator: scanning down from native
index `x/2`, the first clear bit of the model is the packed position of
the largest prime `P` with `2 < P < x`. -/
theorem rev_bridge (x : Nat) (hx : 4 ≤ x) :
    2 < Nat.findGreatest (fun p => 2 < p ∧ Nat.Prime p) (x - 1) ∧
      Nat.Prime (Nat.findGreatest (fun p => 2 < p ∧ Nat.Prime p) (x - 1)) ∧
      Nat.findGreatest (fun p => 2 < p ∧ Nat.Prime p) (x - 1) % 2 = 1 ∧
      Nat.findGreatest (fun p => 2 < p ∧ Nat.Prime p) (x - 1) < x ∧
      sieveBitSet
        (segSpaceOfNative (Nat.findGreatest (fun p => 2 < p ∧ Nat.Prime p) (x - 1) / 2)) =
        false ∧
      segSpaceOfNative (Nat.findGreatest (fun p => 2 < p ∧ Nat.Prime p) (x - 1) / 2) <
        segSpaceOfNative (x / 2) ∧
      (∀ h, segSpaceOfNative (Nat.findGreatest (fun p => 2 < p ∧ Nat.Prime p) (x - 1) / 2) < h →
        h < segSpaceOfNative (x / 2) → sieveBitSet h = true) ∧
      2 * (Nat.findGreatest (fun p => 2 < p ∧ Nat.Prime p) (x - 1) / 2) + 1 =
        Nat.findGreatest (fun p => 2 < p ∧ Nat.Prime p) (x - 1) := by
  set P := Nat.findGreatest (fun p => 2 < p ∧ Nat.Prime p) (x - 1) with hPdef
  have hPspec : 2 < P ∧ Nat.Prime P := by
    rw [hPdef]
    exact Nat.findGreatest_spec (P := fun p => 2 < p ∧ Nat.Prime p) (m := 3) (by omega)
      ⟨by omega, by norm_num⟩
  have hPle : P ≤ x - 1 := Nat.findGreatest_le (x - 1)
  have hPodd : P % 2 = 1 := by
    rcases hPspec.2.eq_two_or_odd with h | h
    · omega
    · exact h
  have heq : 2 * (P / 2) + 1 = P := by omega
  refine ⟨hPspec.1, hPspec.2, hPodd, by omega, ?_, ?_, ?_, heq⟩
  · exact (sieveBitSet_eq_false_iff_prime _).mpr ⟨P / 2, rfl, by rw [heq]; exact hPspec.2⟩
  · exact segSpaceOfNative_strictMono (by omega)
  · intro h h1 h2
    by_contra hclear
    have hclear2 : sieveBitSet h = false := by
      cases hb : sieveBitSet h
      · rfl
      · exact absurd hb hclear
    obtain ⟨m, rfl, hq⟩ := (sieveBitSet_eq_false_iff_prime _).mp hclear2
    have hm1 : P / 2 < m := by
      by_contra hle
      have hmono : segSpaceOfNative m ≤ segSpaceOfNative (P / 2) :=
        segSpaceOfNative_strictMono.monotone (by omega)
      omega
    have hm2 : m < x / 2 := by
      by_contra hge
      have hmono : segSpaceOfNative (x / 2) ≤ segSpaceOfNative m :=
        segSpaceOfNative_strictMono.monotone (by omega)
      omega
    have hgr := Nat.findGreatest_is_greatest (P := fun p => 2 < p ∧ Nat.Prime p)
      (k := 2 * m + 1) (n := x - 1) (by omega) (by omega)
    exact hgr ⟨by omega, hq⟩

theorem sieveBitSet_zero : sieveBitSet 0 = true := by decide

/-! ## The forward iterator -/

structure FwdIt where
  pSieve : Nat → Nat
  block : Nat
  iBlock : Nat
  iEndBlock : Nat
  x : Nat

/-- `FwdIterator::AdvanceInternal`, with `fuel` bounding the number of
loop iterations (each iteration moves to the next word, growing the sieve
by one segment when it runs past the end). -/
def fwdAdvance (fuel : Nat) (s : SieveState) (it : FwdIt) : Option (SieveState × FwdIt) :=
  if it.block ≠ 0 then
    some (s, { it with x := recoverX it.iBlock (ctz64 it.block) })
  else
    match fuel with
    | 0 => none
    | f + 1 =>
      let iB := (it.iBlock + 1) % W64
      if it.iEndBlock ≤ iB then
        let s2 := GrowToInternal s (s.numSegsComputed + 1)
        fwdAdvance f s2
          { pSieve := s2.pSieve, block := compl64 (s2.pSieve iB), iBlock := iB,
            iEndBlock := kBlocksPerSeg * s2.numSegsComputed, x := it.x }
      else
        fwdAdvance f s
          { pSieve := it.pSieve, block := compl64 (it.pSieve iB), iBlock := iB,
            iEndBlock := it.iEndBlock, x := it.x }

/-- `FwdIterator(PrimeSieve&)`: the from-the-beginning constructor
(`m_block = 0`, `m_iBlock = ~0`, `m_x = 2`; no advance). -/
def fwdIterBegin (s : SieveState) : FwdIt :=
  { pSieve := s.pSieve, block := 0, iBlock := W64 - 1,
    iEndBlock := kBlocksPerSeg * s.numSegsComputed, x := 2 }

/-- `FwdIterator(PrimeSieve&, U64 x)`: the from-`x` constructor. -/
def fwdIterFrom (fuel : Nat) (s : SieveState) (x : Nat) : Option (SieveState × FwdIt) :=
  let iBit_NativeSpace := ((x + 1) % W64) >>> 1
  let iSeg := iBit_NativeSpace / kBitsPerSeg
  let s1 := if s.numSegsComputed ≤ iSeg then GrowToInternal s (iSeg + 1) else s
  let iBit_SegSpace := iBit_NativeSpace + kUnusedBitsPerSeg * iSeg
  fwdAdvance fuel s1
    { pSieve := s1.pSieve
      block := compl64 (s1.pSieve (iBit_SegSpace >>> 6)) &&&
        (((W64 - 1) <<< mask6 iBit_SegSpace) % W64)
      iBlock := iBit_SegSpace >>> 6
      iEndBlock := kBlocksPerSeg * s1.numSegsComputed
      x := x }

/-- `FwdIteratorFrom::begin()`: `m_x >= 2 ? FwdIterator(m_sieve, m_x) :
FwdIterator(m_sieve)`. -/
def fwdIterFromBegin (fuel : Nat) (s : SieveState) (x : Nat) : Option (SieveState × FwdIt) :=
  if 2 ≤ x then fwdIterFrom fuel s x else some (s, fwdIterBegin s)

/-- `FwdIterator::operator++`: `m_block &= m_block - 1; AdvanceInternal()`. -/
def fwdSucc (fuel : Nat) (s : SieveState) (it : FwdIt) : Option (SieveState × FwdIt) :=
  fwdAdvance fuel s { it with block := it.block &&& ((it.block + (W64 - 1)) % W64) }

/-- `NextPrime(x) = *IterateForwardFrom(x).begin()`. -/
def NextPrime (fuel : Nat) (s : SieveState) (x : Nat) : Option (SieveState × Nat) :=
  (fwdIterFromBegin fuel s x).map fun p => (p.1, p.2.x)

/-- `k` applications of `operator++`. -/
def fwdRun (fuel : Nat) : SieveState → FwdIt → Nat → Option (SieveState × FwdIt)
  | s, it, 0 => some (s, it)
  | s, it, k + 1 =>
    match fwdSucc fuel s it with
    | some p => fwdRun fuel p.1 p.2 k
    | none => none

/-- The `k`-th value yielded by `IterateForwardFrom(x)` (the value after
`begin()` and `k` increments). -/
def fwdNthYield (fuel : Nat) (s : SieveState) (x k : Nat) : Option Nat :=
  (fwdIterFromBegin fuel s x).bind fun p => (fwdRun fuel p.1 p.2 k).map fun q => q.2.x

/-! ## The reverse iterator -/

structure RevIt where
  pSieve : Nat → Nat
  block : Nat
  iBlock : Nat
  x : Nat

/-- `RevIterator::AdvanceInternal` (terminates structurally: `m_iBlock`
decreases). Returns the final `(m_iBlock, m_block, m_x)`. -/
def revAdvanceLoop (bm : Nat → Nat) : Nat → Nat → Nat → Nat × Nat × Nat
  | iBlock, block, x =>
    if block ≠ 0 then (iBlock, block, recoverX iBlock (clz64 block ^^^ 63))
    else
      match iBlock with
      | 0 => (0, block, x - 1)
      | iB + 1 => revAdvanceLoop bm iB (compl64 (bm iB)) x

/-- `RevIterator(PrimeSieve&, U64 x)` — the object returned by
`IterateBackwardFrom(x).begin()` — together with the post-construction
sieve state. -/
def RevIterator (s : SieveState) (x : Nat) : SieveState × RevIt :=
  if x ≤ 2 then (s, { pSieve := s.pSieve, block := 0, iBlock := 0, x := 1 })
  else
    let iBit_NativeSpace := x >>> 1
    let iSeg := iBit_NativeSpace / kBitsPerSeg
    let s1 := if s.numSegsComputed ≤ iSeg then GrowToInternal s (iSeg + 1) else s
    let iBit_SegSpace := iBit_NativeSpace + kUnusedBitsPerSeg * iSeg
    let iB := iBit_SegSpace >>> 6
    let r := revAdvanceLoop s1.pSieve iB
      (compl64 (s1.pSieve iB ||| (((W64 - 1) <<< mask6 iBit_SegSpace) % W64))) x
    (s1, { pSieve := s1.pSieve, block := r.2.1, iBlock := r.1, x := r.2.2 })

/-- `RevIterator::operator++`:
`m_block &= ~ShiftRight(1ULL << 63, CountLeadingZeros(m_block)); AdvanceInternal()`. -/
def revSucc (it : RevIt) : RevIt :=
  let r := revAdvanceLoop it.pSieve it.iBlock
    (it.block &&& compl64 ((2 ^ 63) >>> mask6 (clz64 it.block))) it.x
  { pSieve := it.pSieve, block := r.2.1, iBlock := r.1, x := r.2.2 }

/-- `PrevPrime(x) = *IterateBackwardFrom(x).begin()`. -/
def PrevPrime (s : SieveState) (x : Nat) : SieveState × Nat :=
  ((RevIterator s x).1, (RevIterator s x).2.x)

/-- The values yielded until the end sentinel (`m_x == 1`), or `none` if
`fuel` iterations do not reach it. -/
def revYields : Nat → RevIt → Option (List Nat)
  | 0, it => if it.x = 1 then some [] else none
  | fuel + 1, it =>
    if it.x = 1 then some []
    else (revYields fuel (revSucc it)).map fun l => it.x :: l

/-- The primes below `x` in decreasing order. -/
def descPrimesBelow (x : Nat) : List Nat :=
  ((List.range x).filter fun p => primeB p).reverse

/-- `n` reverse-iterator increments, with the sieve state threaded through
(the methods hold a `m_sieve` reference but never touch it). -/
def revRunS : Nat → SieveState × RevIt → SieveState × RevIt
  | 0, p => p
  | n + 1, p => revRunS n (p.1, revSucc p.2)

/-- C8: after its constructor returns, a reverse iterator never grows the
sieve: any number of `operator++` steps (and the pure `operator*`) leaves
`numSegsComputed`, `numSegsAllocated` and every bitmap word unchanged. -/
theorem claim_revIterator_never_grows (s : SieveState) (it : RevIt) (n : Nat) :
    (revRunS n (s, it)).1 = s ∧
      (revRunS n (s, it)).1.numSegsComputed = s.numSegsComputed ∧
      (revRunS n (s, it)).1.numSegsAllocated = s.numSegsAllocated ∧
      ∀ w, (revRunS n (s, it)).1.pSieve w = s.pSieve w := by
  have h : ∀ m (p : SieveState × RevIt), (revRunS m p).1 = p.1 := by
    intro m
    induction m with
    | zero => intro p; rfl
    | succ m ih => intro p; exact ih (p.1, revSucc p.2)
  refine ⟨h n (s, it), ?_, ?_, ?_⟩
  · rw [h n (s, it)]
  · rw [h n (s, it)]
  · intro w
    rw [h n (s, it)]

/-! ## Reverse-iterator correctness -/

/-- Invariant of the reverse scan: the words at or below the cursor are
correct sieve words, and the set bits of `block` are exactly the clear
(prime) model bits of the cursor word strictly below the frontier `G`. -/
def RevLoopInv (bm : Nat → Nat) (iBlock block G : Nat) : Prop :=
  (∀ w, w ≤ iBlock → bm w = sieveWord w) ∧ block < W64 ∧
    64 * iBlock ≤ G ∧ G ≤ 64 * iBlock + 64 ∧
    ∀ j, j < 64 → block.testBit j =
      (decide (64 * iBlock + j < G) && !sieveBitSet (64 * iBlock + j))

theorem revLoopInv_no_clear {bm : Nat → Nat} {iBlock block G : Nat}
    (hinv : RevLoopInv bm iBlock block G)
    (hblock : block = 0) {h : Nat} (hh1 : 64 * iBlock ≤ h) (hh2 : h < G) :
    sieveBitSet h = true := by
  obtain ⟨hpm, hlt, hr1, hr2, hchar⟩ := hinv
  have hj : h - 64 * iBlock < 64 := by omega
  have := hchar (h - 64 * iBlock) hj
  rw [hblock, Nat.zero_testBit] at this
  have harg : 64 * iBlock + (h - 64 * iBlock) = h := by omega
  rw [harg] at this
  cases hb : sieveBitSet h
  · rw [hb] at this
    simp [show 64 * iBlock + (h - 64 * iBlock) < G from by omega] at this
    omega
  · rfl

theorem revLoopInv_clear_of_testBit {bm : Nat → Nat} {iBlock block G : Nat}
    (hinv : RevLoopInv bm iBlock block G) {j : Nat} (hj : j < 64)
    (hbit : block.testBit j = true) :
    64 * iBlock + j < G ∧ sieveBitSet (64 * iBlock + j) = false := by
  obtain ⟨hpm, hlt, hr1, hr2, hchar⟩ := hinv
  have := hchar j hj
  rw [hbit] at this
  constructor
  · by_contra hge
    simp [hge] at this
  · cases hb : sieveBitSet (64 * iBlock + j)
    · rfl
    · rw [hb] at this
      simp at this

/-- `AdvanceInternal` when a clear bit `g` lies below the frontier (with
nothing clear in between): the scan stops exactly at `g`. -/
theorem revAdvanceLoop_found (bm : Nat → Nat) :
    ∀ iBlock block x G g, RevLoopInv bm iBlock block G →
      sieveBitSet g = false → g < G →
      (∀ h, g < h → h < G → sieveBitSet h = true) →
      ∃ block2, revAdvanceLoop bm iBlock block x =
          (g / 64, block2, recoverX (g / 64) (g % 64)) ∧
        RevLoopInv bm (g / 64) block2 (g + 1) := by
  intro iBlock
  induction iBlock with
  | zero =>
    intro block x G g hinv hg hgG hcert
    have hblk : block ≠ 0 := by
      intro h0
      have := revLoopInv_no_clear hinv h0 (by omega) hgG
      rw [hg] at this
      exact Bool.false_ne_true this
    -- g lies in word 0
    have hgw : g < 64 := by
      have := hinv.2.2.2.1
      omega
    have hbitg : block.testBit (g % 64) = true := by
      have := hinv.2.2.2.2 (g % 64) (by omega)
      rw [show 64 * 0 + g % 64 = g from by omega] at this
      rw [this, hg]
      simp
      omega
    have hmax : ∀ i, g % 64 < i → block.testBit i = false := by
      intro i hi
      by_cases hi64 : i < 64
      · have hchar := hinv.2.2.2.2 i hi64
        rw [show 64 * 0 + i = i from by omega] at hchar
        rw [hchar]
        by_cases hiG : i < G
        · rw [hcert i (by omega) hiG]
          simp
        · simp [hiG]
      · apply Nat.testBit_lt_two_pow
        calc block < W64 := hinv.2.1
        _ = 2 ^ 64 := rfl
        _ ≤ 2 ^ i := Nat.pow_le_pow_right (by norm_num) (by omega)
    have hclz : clz64 block = 63 - g % 64 :=
      clz64_eq block (g % 64) (by omega) hbitg fun i h1 h2 => hmax i h1
    refine ⟨block, ?_, ?_⟩
    · rw [revAdvanceLoop, if_pos hblk, hclz, xor63 (63 - g % 64) (by omega),
        show 63 - (63 - g % 64) = g % 64 from by omega,
        show g / 64 = 0 from by omega]
    · obtain ⟨hpm, hlt, hr1, hr2, hchar⟩ := hinv
      refine ⟨by rwa [show g / 64 = 0 from by omega], hlt, by omega, by omega, ?_⟩
      intro j hj
      have := hchar j hj
      rw [this, show g / 64 = 0 from by omega]
      by_cases hjg : 64 * 0 + j ≤ g
      · congr 1
        rw [decide_eq_decide]
        omega
      · have h1 : ¬(64 * 0 + j < g + 1) := by omega
        rw [decide_eq_false h1, Bool.false_and]
        by_cases h2 : 64 * 0 + j < G
        · rw [hcert (64 * 0 + j) (by omega) h2]
          simp
        · rw [decide_eq_false h2, Bool.false_and]
  | succ iB ih =>
    intro block x G g hinv hg hgG hcert
    by_cases hblk : block = 0
    · -- no clear bit in this word: descend
      have hglt : g < 64 * (iB + 1) := by
        by_contra hge
        have := revLoopInv_no_clear hinv hblk (by omega) hgG
        rw [hg] at this
        exact Bool.false_ne_true this
      have hpm := hinv.1
      have hstep : revAdvanceLoop bm (iB + 1) block x =
          revAdvanceLoop bm iB (compl64 (bm iB)) x := by
        rw [revAdvanceLoop]
        simp [hblk]
      have hword : bm iB = sieveWord iB := hpm iB (by omega)
      have hinv2 : RevLoopInv bm iB (compl64 (bm iB)) (64 * (iB + 1)) := by
        refine ⟨fun w hw => hpm w (by omega), ?_, by omega, by omega, ?_⟩
        · rw [hword]
          exact compl64_lt _ (sieveWord_lt iB)
        · intro j hj
          rw [hword, testBit_compl64 _ _ hj, testBit_sieveWord _ _ hj]
          simp [show 64 * iB + j < 64 * (iB + 1) from by omega]
      have hcert2 : ∀ h, g < h → h < 64 * (iB + 1) → sieveBitSet h = true := by
        intro h h1 h2
        exact hcert h h1 (by have := hinv.2.2.1; omega)
      obtain ⟨block2, heq, hinv3⟩ := ih (compl64 (bm iB)) x (64 * (iB + 1)) g hinv2 hg hglt hcert2
      exact ⟨block2, by rw [hstep, heq], hinv3⟩
    · -- stop in this word
      have hgw : 64 * (iB + 1) ≤ g ∨ g < 64 * (iB + 1) + 64 := by omega
      -- the highest set bit of block is at g's offset
      have hg_in : 64 * (iB + 1) ≤ g := by
        by_contra hlt
        -- block has a set bit, giving a clear position in [64(iB+1), G) above g
        have hex : ∃ j, j < 64 ∧ block.testBit j = true := by
          by_contra hnone
          push_neg at hnone
          apply hblk
          apply Nat.zero_of_testBit_eq_false
          intro i
          by_cases hi : i < 64
          · cases hb : block.testBit i
            · rfl
            · exact absurd hb (by simp [hnone i hi])
          · apply Nat.testBit_lt_two_pow
            calc block < W64 := hinv.2.1
            _ = 2 ^ 64 := rfl
            _ ≤ 2 ^ i := Nat.pow_le_pow_right (by norm_num) (by omega)
        obtain ⟨j, hj, hbit⟩ := hex
        obtain ⟨h1, h2⟩ := revLoopInv_clear_of_testBit hinv hj hbit
        have := hcert (64 * (iB + 1) + j) (by omega) h1
        rw [h2] at this
        exact Bool.false_ne_true this
      have hgdiv : g / 64 = iB + 1 := by
        have := hinv.2.2.2.1
        omega
      have hbitg : block.testBit (g % 64) = true := by
        have := hinv.2.2.2.2 (g % 64) (by omega)
        rw [show 64 * (iB + 1) + g % 64 = g from by omega] at this
        rw [this, hg]
        simp
        omega
      have hmax : ∀ i, g % 64 < i → block.testBit i = false := by
        intro i hi
        by_cases hi64 : i < 64
        · have hchar := hinv.2.2.2.2 i hi64
          rw [hchar]
          by_cases hiG : 64 * (iB + 1) + i < G
          · rw [hcert (64 * (iB + 1) + i) (by omega) hiG]
            simp
          · simp [hiG]
        · apply Nat.testBit_lt_two_pow
          calc block < W64 := hinv.2.1
          _ = 2 ^ 64 := rfl
          _ ≤ 2 ^ i := Nat.pow_le_pow_right (by norm_num) (by omega)
      have hclz : clz64 block = 63 - g % 64 :=
        clz64_eq block (g % 64) (by omega) hbitg fun i h1 h2 => hmax i h1
      refine ⟨block, ?_, ?_⟩
      · rw [revAdvanceLoop, if_pos hblk, hclz, xor63 (63 - g % 64) (by omega),
          show 63 - (63 - g % 64) = g % 64 from by omega, hgdiv]
      · obtain ⟨hpm, hlt, hr1, hr2, hchar⟩ := hinv
        refine ⟨by rwa [hgdiv], hlt, by omega, by omega, ?_⟩
        intro j hj
        rw [hgdiv, hchar j hj]
        by_cases hjg : 64 * (iB + 1) + j ≤ g
        · congr 1
          rw [decide_eq_decide]
          omega
        · have h1 : ¬(64 * (iB + 1) + j < g + 1) := by omega
          rw [decide_eq_false h1, Bool.false_and]
          by_cases h2 : 64 * (iB + 1) + j < G
          · rw [hcert (64 * (iB + 1) + j) (by omega) h2]
            simp
          · rw [decide_eq_false h2, Bool.false_and]

/-- `AdvanceInternal` when nothing below the frontier is clear: the scan
bottoms out at word 0 and decrements `m_x`. -/
theorem revAdvanceLoop_empty (bm : Nat → Nat) :
    ∀ iBlock block x G, RevLoopInv bm iBlock block G →
      (∀ h, h < G → sieveBitSet h = true) →
      revAdvanceLoop bm iBlock block x = (0, 0, x - 1) := by
  intro iBlock
  induction iBlock with
  | zero =>
    intro block x G hinv hcert
    have hblk : block = 0 := by
      by_contra hne
      have hex : ∃ j, j < 64 ∧ block.testBit j = true := by
        by_contra hnone
        push_neg at hnone
        apply hne
        apply Nat.zero_of_testBit_eq_false
        intro i
        by_cases hi : i < 64
        · cases hb : block.testBit i
          · rfl
          · exact absurd hb (by simp [hnone i hi])
        · apply Nat.testBit_lt_two_pow
          calc block < W64 := hinv.2.1
          _ = 2 ^ 64 := rfl
          _ ≤ 2 ^ i := Nat.pow_le_pow_right (by norm_num) (by omega)
      obtain ⟨j, hj, hbit⟩ := hex
      obtain ⟨h1, h2⟩ := revLoopInv_clear_of_testBit hinv hj hbit
      have := hcert (64 * 0 + j) h1
      rw [h2] at this
      exact Bool.false_ne_true this
    rw [revAdvanceLoop]
    simp [hblk]
  | succ iB ih =>
    intro block x G hinv hcert
    have hblk : block = 0 := by
      by_contra hne
      have hex : ∃ j, j < 64 ∧ block.testBit j = true := by
        by_contra hnone
        push_neg at hnone
        apply hne
        apply Nat.zero_of_testBit_eq_false
        intro i
        by_cases hi : i < 64
        · cases hb : block.testBit i
          · rfl
          · exact absurd hb (by simp [hnone i hi])
        · apply Nat.testBit_lt_two_pow
          calc block < W64 := hinv.2.1
          _ = 2 ^ 64 := rfl
          _ ≤ 2 ^ i := Nat.pow_le_pow_right (by norm_num) (by omega)
      obtain ⟨j, hj, hbit⟩ := hex
      obtain ⟨h1, h2⟩ := revLoopInv_clear_of_testBit hinv hj hbit
      have := hcert (64 * (iB + 1) + j) h1
      rw [h2] at this
      exact Bool.false_ne_true this
    have hpm := hinv.1
    have hword : bm iB = sieveWord iB := hpm iB (by omega)
    have hstep : revAdvanceLoop bm (iB + 1) block x =
        revAdvanceLoop bm iB (compl64 (bm iB)) x := by
      rw [revAdvanceLoop]
      simp [hblk]
    have hinv2 : RevLoopInv bm iB (compl64 (bm iB)) (64 * (iB + 1)) := by
      refine ⟨fun w hw => hpm w (by omega), ?_, by omega, by omega, ?_⟩
      · rw [hword]
        exact compl64_lt _ (sieveWord_lt iB)
      · intro j hj
        rw [hword, testBit_compl64 _ _ hj, testBit_sieveWord _ _ hj]
        simp [show 64 * iB + j < 64 * (iB + 1) from by omega]
    have hcert2 : ∀ h, h < 64 * (iB + 1) → sieveBitSet h = true := by
      intro h h2
      exact hcert h (by have := hinv.2.2.1; omega)
    rw [hstep]
    exact ih (compl64 (bm iB)) x (64 * (iB + 1)) hinv2 hcert2

/-- After `operator++` clears the highest set bit (the one for the prime
just yielded at packed index `g`), the frontier drops from `g + 1` to
`g`. -/
theorem revSucc_block_inv (bm : Nat → Nat) (iBlock block g : Nat)
    (hinv : RevLoopInv bm iBlock block (g + 1)) (hclear : sieveBitSet g = false)
    (hiB : iBlock = g / 64) :
    RevLoopInv bm iBlock (block &&& compl64 ((2 ^ 63) >>> mask6 (clz64 block))) g := by
  obtain ⟨hpm, hlt, hr1, hr2, hchar⟩ := hinv
  have hpos : 64 * iBlock + g % 64 = g := by omega
  have hbitg : block.testBit (g % 64) = true := by
    have := hchar (g % 64) (by omega)
    rw [hpos, hclear] at this
    rw [this]
    simp
  have hmax : ∀ i, g % 64 < i → block.testBit i = false := by
    intro i hi
    by_cases hi64 : i < 64
    · have := hchar i hi64
      rw [this]
      simp [show ¬(64 * iBlock + i < g + 1) from by omega]
    · apply Nat.testBit_lt_two_pow
      calc block < W64 := hlt
      _ = 2 ^ 64 := rfl
      _ ≤ 2 ^ i := Nat.pow_le_pow_right (by norm_num) (by omega)
  have hbit2 := clear_highest_testBit block (g % 64) hlt (by omega) hbitg hmax
  refine ⟨hpm, ?_, by omega, by omega, ?_⟩
  · exact Nat.and_lt_two_pow block (compl64_lt _ (by
      rw [Nat.shiftRight_eq_div_pow]
      calc (2 ^ 63 : Nat) / 2 ^ mask6 (clz64 block) ≤ 2 ^ 63 := Nat.div_le_self _ _
      _ < W64 := by norm_num [W64]))
  · intro j hj
    rw [hbit2 j, hchar j hj]
    by_cases hje : j = g % 64
    · subst hje
      rw [hpos]
      simp
    · by_cases hjlt : 64 * iBlock + j < g
      · simp [show 64 * iBlock + j < g + 1 from by omega, hjlt, hje]
      · have h1 : ¬(64 * iBlock + j < g) := hjlt
        have h2 : ¬(64 * iBlock + j < g + 1) := by omega
        simp [h1, h2]

/-- `operator++` after yielding an odd prime `p ≥ 5`: the iterator moves
to the largest prime `P` with `2 < P < p`. -/
theorem revSucc_yield_next (it : RevIt) (p : Nat) (hx : it.x = p) (hp : Nat.Prime p)
    (hp5 : 4 ≤ p) (hpodd : p % 2 = 1)
    (hinv : RevLoopInv it.pSieve it.iBlock it.block (segSpaceOfNative (p / 2) + 1))
    (hiB : it.iBlock = segSpaceOfNative (p / 2) / 64) :
    (revSucc it).x = Nat.findGreatest (fun q => 2 < q ∧ Nat.Prime q) (p - 1) ∧
      2 < Nat.findGreatest (fun q => 2 < q ∧ Nat.Prime q) (p - 1) ∧
      Nat.Prime (Nat.findGreatest (fun q => 2 < q ∧ Nat.Prime q) (p - 1)) ∧
      Nat.findGreatest (fun q => 2 < q ∧ Nat.Prime q) (p - 1) % 2 = 1 ∧
      Nat.findGreatest (fun q => 2 < q ∧ Nat.Prime q) (p - 1) < p ∧
      RevLoopInv (revSucc it).pSieve (revSucc it).iBlock (revSucc it).block
        (segSpaceOfNative (Nat.findGreatest (fun q => 2 < q ∧ Nat.Prime q) (p - 1) / 2) + 1) ∧
      (revSucc it).iBlock =
        segSpaceOfNative (Nat.findGreatest (fun q => 2 < q ∧ Nat.Prime q) (p - 1) / 2) / 64 ∧
      (revSucc it).pSieve = it.pSieve ∧
      ∀ q, Nat.Prime q → Nat.findGreatest (fun q2 => 2 < q2 ∧ Nat.Prime q2) (p - 1) < q →
        q < p → False := by
  have hg : 2 * (p / 2) + 1 = p := by omega
  have hclear : sieveBitSet (segSpaceOfNative (p / 2)) = false :=
    (sieveBitSet_eq_false_iff_prime _).mpr ⟨p / 2, rfl, by rw [hg]; exact hp⟩
  have hinv2 := revSucc_block_inv it.pSieve it.iBlock it.block (segSpaceOfNative (p / 2))
    hinv hclear hiB
  obtain ⟨hP2, hPp, hPodd, hPlt, hPclear, hPfront, hPcert, hPeq⟩ := rev_bridge p hp5
  obtain ⟨block2, hloop, hinv3⟩ := revAdvanceLoop_found it.pSieve it.iBlock
    (it.block &&& compl64 ((2 ^ 63) >>> mask6 (clz64 it.block))) it.x
    (segSpaceOfNative (p / 2))
    (segSpaceOfNative (Nat.findGreatest (fun q => 2 < q ∧ Nat.Prime q) (p - 1) / 2))
    hinv2 hPclear hPfront hPcert
  have hx2 : (revSucc it).x =
      recoverX (segSpaceOfNative (Nat.findGreatest (fun q => 2 < q ∧ Nat.Prime q) (p - 1) / 2) / 64)
        (segSpaceOfNative (Nat.findGreatest (fun q => 2 < q ∧ Nat.Prime q) (p - 1) / 2) % 64) := by
    simp only [revSucc, hloop]
  have hrec := recoverX_segSpace (Nat.findGreatest (fun q => 2 < q ∧ Nat.Prime q) (p - 1) / 2)
  refine ⟨?_, hP2, hPp, hPodd, hPlt, ?_, ?_, ?_, ?_⟩
  · rw [hx2, hrec, hPeq]
  · simp only [revSucc, hloop]
    exact hinv3
  · simp only [revSucc, hloop]
  · simp only [revSucc, hloop]
  · intro q hq h1 h2
    have hgr := Nat.findGreatest_is_greatest (P := fun q2 => 2 < q2 ∧ Nat.Prime q2)
      (k := q) (n := p - 1) h1 (by omega)
    exact hgr ⟨by omega, hq⟩

/-- `operator++` after yielding 3: the scan bottoms out and `m_x` becomes
2 (the explicit emission of the special prime 2). -/
theorem revSucc_yield_three (it : RevIt) (hx : it.x = 3)
    (hinv : RevLoopInv it.pSieve it.iBlock it.block (segSpaceOfNative 1 + 1))
    (hiB : it.iBlock = segSpaceOfNative 1 / 64) :
    (revSucc it).x = 2 ∧ (revSucc it).iBlock = 0 ∧ (revSucc it).block = 0 := by
  have hseg1 : segSpaceOfNative 1 = 1 := by decide
  rw [hseg1] at hinv hiB
  have hclear : sieveBitSet 1 = false := by decide
  have hinv2 := revSucc_block_inv it.pSieve it.iBlock it.block 1 hinv hclear (by omega)
  have hcert : ∀ h, h < 1 → sieveBitSet h = true := by
    intro h hh
    rw [show h = 0 from by omega]
    exact sieveBitSet_zero
  have hloop := revAdvanceLoop_empty it.pSieve it.iBlock
    (it.block &&& compl64 ((2 ^ 63) >>> mask6 (clz64 it.block))) it.x 1 hinv2 hcert
  refine ⟨?_, ?_, ?_⟩ <;> simp only [revSucc, hloop] <;> rw [hx]

theorem revYields_sentinel (fuel : Nat) (it : RevIt) (h : it.x = 1) :
    revYields fuel it = some [] := by
  cases fuel <;> simp [revYields, h]

theorem revYields_two (fuel : Nat) (it : RevIt) (hx : it.x = 2) (hb : it.block = 0)
    (hiB : it.iBlock = 0) (hf : 1 ≤ fuel) : revYields fuel it = some [2] := by
  cases fuel with
  | zero => omega
  | succ f =>
    rw [revYields, if_neg (by rw [hx]; norm_num)]
    have hz : it.block &&& compl64 ((2 ^ 63) >>> mask6 (clz64 it.block)) = 0 := by
      rw [hb]
      simp
    have hloop : revAdvanceLoop it.pSieve it.iBlock
        (it.block &&& compl64 ((2 ^ 63) >>> mask6 (clz64 it.block))) it.x = (0, 0, it.x - 1) := by
      rw [hz, hiB, revAdvanceLoop]
      simp
    have hsucc : (revSucc it).x = 1 := by
      simp only [revSucc, hloop]
      rw [hx]
    rw [revYields_sentinel f _ hsucc, hx]
    rfl

/-! ## The descending prime list -/

theorem descPrimesBelow_succ_of_prime (b : Nat) (hb : Nat.Prime b) :
    descPrimesBelow (b + 1) = b :: descPrimesBelow b := by
  have hpb : primeB b = true := (primeB_iff b).mpr hb
  unfold descPrimesBelow
  rw [List.range_succ, List.filter_append, List.reverse_append]
  simp [hpb]

theorem descPrimesBelow_succ_of_not_prime (b : Nat) (hb : ¬Nat.Prime b) :
    descPrimesBelow (b + 1) = descPrimesBelow b := by
  have hpb : primeB b = false := by
    cases h : primeB b
    · rfl
    · exact absurd ((primeB_iff b).mp h) hb
  unfold descPrimesBelow
  rw [List.range_succ, List.filter_append]
  simp [hpb]

theorem descPrimesBelow_congr : ∀ b a, a ≤ b → (∀ q, a ≤ q → q < b → ¬Nat.Prime q) →
    descPrimesBelow b = descPrimesBelow a := by
  intro b
  induction b with
  | zero =>
    intro a ha _
    rw [Nat.le_zero.mp ha]
  | succ b ih =>
    intro a ha h
    rcases Nat.eq_or_lt_of_le ha with he | hlt
    · rw [he]
    · rw [descPrimesBelow_succ_of_not_prime b (h b (by omega) (by omega))]
      exact ih a (by omega) fun q h1 h2 => h q h1 (by omega)

/-- Every nonempty descending prime list ends with 2. -/
theorem descPrimesBelow_ends_two : ∀ x, 3 ≤ x → ∃ l, descPrimesBelow x = l ++ [2] := by
  intro x
  induction x with
  | zero => omega
  | succ b ih =>
    intro hx
    rcases Nat.lt_or_ge b 3 with hb | hb
    · have hb3 : b = 2 := by omega
      subst hb3
      exact ⟨[], by decide⟩
    · obtain ⟨l, hl⟩ := ih (by omega)
      by_cases hp : Nat.Prime b
      · rw [descPrimesBelow_succ_of_prime b hp, hl]
        exact ⟨b :: l, rfl⟩
      · rw [descPrimesBelow_succ_of_not_prime b hp]
        exact ⟨l, hl⟩

/-- The descending yield chain: from a yield state at odd prime `p`, the
remaining yields are exactly the primes `≤ p` in decreasing order. -/
theorem revYields_chain (p : Nat) : 2 < p → Nat.Prime p → p % 2 = 1 →
    ∀ it fuel, it.x = p →
      RevLoopInv it.pSieve it.iBlock it.block (segSpaceOfNative (p / 2) + 1) →
      it.iBlock = segSpaceOfNative (p / 2) / 64 → p ≤ fuel →
      revYields fuel it = some (descPrimesBelow (p + 1)) := by
  induction p using Nat.strong_induction_on with
  | _ p ih =>
    intro hp2 hp hpodd it fuel hx hinv hiB hfuel
    obtain ⟨f, rfl⟩ : ∃ f, fuel = f + 1 := ⟨fuel - 1, by omega⟩
    rw [revYields, if_neg (by rw [hx]; omega)]
    by_cases h3 : p = 3
    · subst h3
      have h32 : (3 : Nat) / 2 = 1 := by norm_num
      rw [h32] at hinv hiB
      obtain ⟨h1, h2, h3b⟩ := revSucc_yield_three it hx hinv hiB
      rw [revYields_two f (revSucc it) h1 h3b h2 (by omega), hx]
      rfl
    · have hp5 : 4 ≤ p := by omega
      obtain ⟨hPx, hP2, hPp, hPodd2, hPlt, hPinv, hPiB, hPps, hPgap⟩ :=
        revSucc_yield_next it p hx hp hp5 hpodd hinv hiB
      have hrec := ih (Nat.findGreatest (fun q => 2 < q ∧ Nat.Prime q) (p - 1)) (by omega)
        hP2 hPp hPodd2 (revSucc it) f hPx hPinv hPiB (by omega)
      rw [hrec, hx]
      have hlist : descPrimesBelow (p + 1) =
          p :: descPrimesBelow
            (Nat.findGreatest (fun q => 2 < q ∧ Nat.Prime q) (p - 1) + 1) := by
        rw [descPrimesBelow_succ_of_prime p hp]
        have := descPrimesBelow_congr p
          (Nat.findGreatest (fun q => 2 < q ∧ Nat.Prime q) (p - 1) + 1) (by omega)
          fun q h1 h2 hq => hPgap q hq (by omega) h2
        rw [this]
      rw [hlist]
      rfl

/-! ## Reverse iterator: construction -/

/-- The sieve state after the `RevIterator` constructor's growth check. -/
def revStartState (s : SieveState) (x : Nat) : SieveState :=
  if s.numSegsComputed ≤ (x >>> 1) / kBitsPerSeg then
    GrowToInternal s ((x >>> 1) / kBitsPerSeg + 1)
  else s

/-- The `(m_iBlock, m_block, m_x)` produced by the constructor's
`AdvanceInternal` call. -/
def revStartLoop (s : SieveState) (x : Nat) : Nat × Nat × Nat :=
  revAdvanceLoop (revStartState s x).pSieve
    ((x >>> 1 + kUnusedBitsPerSeg * ((x >>> 1) / kBitsPerSeg)) >>> 6)
    (compl64 ((revStartState s x).pSieve
        ((x >>> 1 + kUnusedBitsPerSeg * ((x >>> 1) / kBitsPerSeg)) >>> 6) |||
      (((W64 - 1) <<< mask6 (x >>> 1 + kUnusedBitsPerSeg * ((x >>> 1) / kBitsPerSeg))) % W64)))
    x

theorem RevIterator_eq (s : SieveState) (x : Nat) (hx2 : ¬(x ≤ 2)) :
    RevIterator s x = (revStartState s x,
      { pSieve := (revStartState s x).pSieve, block := (revStartLoop s x).2.1,
        iBlock := (revStartLoop s x).1, x := (revStartLoop s x).2.2 }) := by
  rw [RevIterator, if_neg hx2]
  rfl

theorem revStart_inv (s : SieveState) (hs : WellFormed s) (x : Nat) (hx : 3 ≤ x) :
    x >>> 1 + kUnusedBitsPerSeg * ((x >>> 1) / kBitsPerSeg) = segSpaceOfNative (x / 2) ∧
      RevLoopInv (revStartState s x).pSieve (segSpaceOfNative (x / 2) / 64)
        (compl64 ((revStartState s x).pSieve (segSpaceOfNative (x / 2) / 64) |||
          (((W64 - 1) <<< mask6 (segSpaceOfNative (x / 2))) % W64)))
        (segSpaceOfNative (x / 2)) := by
  have hdiv2 : x >>> 1 = x / 2 := by
    rw [Nat.shiftRight_eq_div_pow, Nat.pow_one]
  have hgdef : x >>> 1 + kUnusedBitsPerSeg * ((x >>> 1) / kBitsPerSeg) =
      segSpaceOfNative (x / 2) := by
    rw [hdiv2, segSpaceOfNative]
  refine ⟨hgdef, ?_⟩
  have hs1wf : WellFormed (revStartState s x) := by
    rw [revStartState]
    by_cases h : s.numSegsComputed ≤ (x >>> 1) / kBitsPerSeg
    · simpa [h] using WellFormed_GrowToInternal hs ((x >>> 1) / kBitsPerSeg + 1)
    · simpa [h] using hs
  have hs1comp : x / 2 / kBitsPerSeg < (revStartState s x).numSegsComputed := by
    rw [revStartState, hdiv2]
    by_cases h : s.numSegsComputed ≤ x / 2 / kBitsPerSeg
    · rw [if_pos h, GrowToInternal_numSegsComputed]
      omega
    · rw [if_neg h]
      omega
  have hblk : segSpaceOfNative (x / 2) / 64 <
      kBlocksPerSeg * (revStartState s x).numSegsComputed :=
    segSpace_div64_lt (x / 2) _ hs1comp
  have hword : (revStartState s x).pSieve (segSpaceOfNative (x / 2) / 64) =
      sieveWord (segSpaceOfNative (x / 2) / 64) := hs1wf _ hblk
  have hwlt : (revStartState s x).pSieve (segSpaceOfNative (x / 2) / 64) < W64 := by
    rw [hword]
    exact sieveWord_lt _
  have hmlt : (((W64 - 1) <<< mask6 (segSpaceOfNative (x / 2))) % W64) < W64 := by
    apply Nat.mod_lt
    norm_num [W64]
  refine ⟨?_, ?_, ?_, ?_, ?_⟩
  · intro w hw
    exact hs1wf w (by omega)
  · exact compl64_lt _ (Nat.or_lt_two_pow hwlt hmlt)
  · omega
  · omega
  · intro j hj
    rw [testBit_compl64 _ _ hj, Nat.testBit_or, hword, testBit_sieveWord _ _ hj,
      mask6_eq_mod, testBit_ones_shl _ _ hj]
    have hsplit : segSpaceOfNative (x / 2) =
        64 * (segSpaceOfNative (x / 2) / 64) + segSpaceOfNative (x / 2) % 64 := by omega
    by_cases hjm : 64 * (segSpaceOfNative (x / 2) / 64) + j < segSpaceOfNative (x / 2)
    · have h1 : ¬(segSpaceOfNative (x / 2) % 64 ≤ j) := by omega
      simp [h1, hjm]
    · have h1 : segSpaceOfNative (x / 2) % 64 ≤ j := by omega
      simp [h1, hjm]

/-- Construction from `x ≥ 4`: the iterator lands on the largest prime
below `x`, in a yield state. -/
theorem RevIterator_yield (s : SieveState) (hs : WellFormed s) (x : Nat) (hx : 4 ≤ x) :
    (RevIterator s x).2.x = Nat.findGreatest (fun q => 2 < q ∧ Nat.Prime q) (x - 1) ∧
      RevLoopInv (RevIterator s x).2.pSieve (RevIterator s x).2.iBlock
        (RevIterator s x).2.block
        (segSpaceOfNative (Nat.findGreatest (fun q => 2 < q ∧ Nat.Prime q) (x - 1) / 2) + 1) ∧
      (RevIterator s x).2.iBlock =
        segSpaceOfNative (Nat.findGreatest (fun q => 2 < q ∧ Nat.Prime q) (x - 1) / 2) / 64 ∧
      2 < Nat.findGreatest (fun q => 2 < q ∧ Nat.Prime q) (x - 1) ∧
      Nat.Prime (Nat.findGreatest (fun q => 2 < q ∧ Nat.Prime q) (x - 1)) ∧
      Nat.findGreatest (fun q => 2 < q ∧ Nat.Prime q) (x - 1) % 2 = 1 ∧
      Nat.findGreatest (fun q => 2 < q ∧ Nat.Prime q) (x - 1) < x ∧
      ∀ q, Nat.Prime q → Nat.findGreatest (fun q2 => 2 < q2 ∧ Nat.Prime q2) (x - 1) < q →
        q < x → False := by
  obtain ⟨hgdef, hinv⟩ := revStart_inv s hs x (by omega)
  obtain ⟨hP2, hPp, hPodd, hPlt, hPclear, hPfront, hPcert, hPeq⟩ := rev_bridge x hx
  obtain ⟨block2, hloop, hinv2⟩ := revAdvanceLoop_found (revStartState s x).pSieve
    (segSpaceOfNative (x / 2) / 64)
    (compl64 ((revStartState s x).pSieve (segSpaceOfNative (x / 2) / 64) |||
      (((W64 - 1) <<< mask6 (segSpaceOfNative (x / 2))) % W64)))
    x (segSpaceOfNative (x / 2))
    (segSpaceOfNative (Nat.findGreatest (fun q => 2 < q ∧ Nat.Prime q) (x - 1) / 2))
    hinv hPclear hPfront hPcert
  have hloop2 : revStartLoop s x =
      (segSpaceOfNative (Nat.findGreatest (fun q => 2 < q ∧ Nat.Prime q) (x - 1) / 2) / 64,
        block2,
        recoverX
          (segSpaceOfNative (Nat.findGreatest (fun q => 2 < q ∧ Nat.Prime q) (x - 1) / 2) / 64)
          (segSpaceOfNative (Nat.findGreatest (fun q => 2 < q ∧ Nat.Prime q) (x - 1) / 2) %
            64)) := by
    rw [revStartLoop]
    rw [show (x >>> 1 + kUnusedBitsPerSeg * ((x >>> 1) / kBitsPerSeg)) >>> 6 =
        segSpaceOfNative (x / 2) / 64 from by
      rw [hgdef, Nat.shiftRight_eq_div_pow]]
    rw [show mask6 (x >>> 1 + kUnusedBitsPerSeg * ((x >>> 1) / kBitsPerSeg)) =
        mask6 (segSpaceOfNative (x / 2)) from by rw [hgdef]]
    exact hloop
  have hre := RevIterator_eq s x (by omega)
  rw [hre]
  have hrec := recoverX_segSpace
    (Nat.findGreatest (fun q => 2 < q ∧ Nat.Prime q) (x - 1) / 2)
  refine ⟨?_, ?_, ?_, hP2, hPp, hPodd, hPlt, ?_⟩
  · simp only [hloop2]
    rw [hrec, hPeq]
  · simp only [hloop2]
    exact hinv2
  · simp only [hloop2]
  · intro q hq h1 h2
    have hgr := Nat.findGreatest_is_greatest (P := fun q2 => 2 < q2 ∧ Nat.Prime q2)
      (k := q) (n := x - 1) h1 (by omega)
    exact hgr ⟨by omega, hq⟩

/-- Construction from `x = 3`: the constructor's advance bottoms out and
the iterator starts at the explicit 2. -/
theorem RevIterator_three (s : SieveState) (hs : WellFormed s) :
    (RevIterator s 3).2.x = 2 ∧ (RevIterator s 3).2.iBlock = 0 ∧
      (RevIterator s 3).2.block = 0 := by
  obtain ⟨hgdef, hinv⟩ := revStart_inv s hs 3 (by omega)
  have hseg : segSpaceOfNative (3 / 2) = 1 := by decide
  rw [hseg] at hinv
  have hcert : ∀ h, h < 1 → sieveBitSet h = true := by
    intro h hh
    rw [show h = 0 from by omega]
    exact sieveBitSet_zero
  have hloop := revAdvanceLoop_empty (revStartState s 3).pSieve (1 / 64)
    (compl64 ((revStartState s 3).pSieve (1 / 64) |||
      (((W64 - 1) <<< mask6 1) % W64))) 3 1
    (by rw [show (1 : Nat) / 64 = 0 from by norm_num] at hinv ⊢; exact hinv) hcert
  have hloop2 : revStartLoop s 3 = (0, 0, 2) := by
    rw [revStartLoop]
    rw [show (3 >>> 1 + kUnusedBitsPerSeg * ((3 >>> 1) / kBitsPerSeg)) >>> 6 = 1 / 64 from by
      rw [hgdef, hseg]
      decide]
    rw [show mask6 (3 >>> 1 + kUnusedBitsPerSeg * ((3 >>> 1) / kBitsPerSeg)) = mask6 1 from by
      rw [hgdef, hseg]]
    rw [hloop]
  have hre := RevIterator_eq s 3 (by omega)
  rw [hre]
  simp [hloop2]

/-- C3: for every `x ≥ 3`, `IterateBackwardFrom(x)` yields exactly the
primes strictly less than `x` in strictly decreasing order, terminating
right after yielding 2 (the yield list is `descPrimesBelow x`, which ends
with 2, and the iterator then equals the end sentinel `m_x == 1` — this is
what `revYields` returning `some` means); for `x ≤ 2`, `begin()` is
already the end sentinel and the sieve is untouched; consequently
`PrevPrime(x)`, the first element, is a prime strictly less than `x`. -/
theorem claim_backward_iteration (s : SieveState) (hs : WellFormed s) (x : Nat) :
    (x ≤ 2 → (RevIterator s x).2.x = 1 ∧ (RevIterator s x).1 = s) ∧
    (3 ≤ x →
      revYields x (RevIterator s x).2 = some (descPrimesBelow x) ∧
      (∃ l, descPrimesBelow x = l ++ [2]) ∧
      (PrevPrime s x).2 < x ∧ Nat.Prime (PrevPrime s x).2 ∧
      ∃ t, descPrimesBelow x = (PrevPrime s x).2 :: t) := by
  constructor
  · intro hx2
    rw [RevIterator, if_pos hx2]
    exact ⟨rfl, rfl⟩
  · intro hx3
    by_cases h3 : x = 3
    · subst h3
      obtain ⟨h1, h2, h3b⟩ := RevIterator_three s hs
      have hpv : (PrevPrime s 3).2 = 2 := h1
      refine ⟨?_, ⟨[], by decide⟩, ?_, ?_, ?_⟩
      · rw [revYields_two 3 _ h1 h3b h2 (by omega),
          show descPrimesBelow 3 = [2] from by decide]
      · rw [hpv]
        omega
      · rw [hpv]
        exact Nat.prime_two
      · exact ⟨[], by rw [hpv]; decide⟩
    · have hx4 : 4 ≤ x := by omega
      obtain ⟨h1, hinv, hiB, hP2, hPp, hPodd, hPlt, hgap⟩ := RevIterator_yield s hs x hx4
      set P := Nat.findGreatest (fun q => 2 < q ∧ Nat.Prime q) (x - 1) with hPdef
      have hchain := revYields_chain P hP2 hPp hPodd (RevIterator s x).2 x h1 hinv hiB
        (by omega)
      have hlx : descPrimesBelow x = descPrimesBelow (P + 1) :=
        descPrimesBelow_congr x (P + 1) (by omega) fun q h1q h2q hq => hgap q hq (by omega) h2q
      have hpv : (PrevPrime s x).2 = P := h1
      refine ⟨?_, descPrimesBelow_ends_two x (by omega), ?_, ?_, ?_⟩
      · rw [hchain, hlx]
      · rw [hpv]
        omega
      · rw [hpv]
        exact hPp
      · rw [hpv]
        exact ⟨descPrimesBelow P, by rw [hlx, descPrimesBelow_succ_of_prime P hPp]⟩

theorem claim_backward_iteration_witness :
    revYields 12 (RevIterator s0 12).2 = some (descPrimesBelow 12) ∧
      (PrevPrime s0 12).2 < 12 :=
  ⟨((claim_backward_iteration s0 WellFormed_s0 12).2 (by norm_num)).1,
    ((claim_backward_iteration s0 WellFormed_s0 12).2 (by norm_num)).2.2.1⟩

/-! ## Forward-iterator correctness -/

/-- Invariant of the forward scan: the cached pointer and end index are in
sync with the sieve, and the set bits of `block` are exactly the clear
(prime) model bits of the cursor word at or beyond the frontier `G`. -/
def FwdLoopInv (s : SieveState) (it : FwdIt) (G : Nat) : Prop :=
  WellFormed s ∧ it.pSieve = s.pSieve ∧
    it.iEndBlock = kBlocksPerSeg * s.numSegsComputed ∧
    it.iBlock < it.iEndBlock ∧ it.block < W64 ∧
    64 * it.iBlock ≤ G ∧ G ≤ 64 * it.iBlock + 64 ∧
    ∀ j, j < 64 → it.block.testBit j =
      (decide (G ≤ 64 * it.iBlock + j) && !sieveBitSet (64 * it.iBlock + j))

theorem fwdAdvance_pos (fuel : Nat) (s : SieveState) (it : FwdIt) (h : it.block ≠ 0) :
    fwdAdvance fuel s it = some (s, { it with x := recoverX it.iBlock (ctz64 it.block) }) := by
  rw [fwdAdvance.eq_def, if_pos h]

theorem fwdAdvance_zero (s : SieveState) (it : FwdIt) (h : it.block = 0) :
    fwdAdvance 0 s it = none := by
  rw [fwdAdvance.eq_def, if_neg (by simp [h])]

theorem fwdAdvance_step (f : Nat) (s : SieveState) (it : FwdIt) (h : it.block = 0) :
    fwdAdvance (f + 1) s it =
      if it.iEndBlock ≤ (it.iBlock + 1) % W64 then
        fwdAdvance f (GrowToInternal s (s.numSegsComputed + 1))
          { pSieve := (GrowToInternal s (s.numSegsComputed + 1)).pSieve
            block := compl64 ((GrowToInternal s (s.numSegsComputed + 1)).pSieve
              ((it.iBlock + 1) % W64))
            iBlock := (it.iBlock + 1) % W64
            iEndBlock := kBlocksPerSeg *
              (GrowToInternal s (s.numSegsComputed + 1)).numSegsComputed
            x := it.x }
      else
        fwdAdvance f s
          { pSieve := it.pSieve
            block := compl64 (it.pSieve ((it.iBlock + 1) % W64))
            iBlock := (it.iBlock + 1) % W64
            iEndBlock := it.iEndBlock
            x := it.x } := by
  rw [fwdAdvance.eq_def, if_neg (by simp [h])]

theorem fwdAdvance_mono (fuel : Nat) :
    ∀ s it r, fwdAdvance fuel s it = some r → fwdAdvance (fuel + 1) s it = some r := by
  induction fuel with
  | zero =>
    intro s it r hr
    by_cases h : it.block ≠ 0
    · rw [fwdAdvance_pos 0 s it h] at hr
      rw [fwdAdvance_pos 1 s it h]
      exact hr
    · rw [fwdAdvance_zero s it (by omega)] at hr
      exact absurd hr (by simp)
  | succ f ih =>
    intro s it r hr
    by_cases h : it.block ≠ 0
    · rw [fwdAdvance_pos (f + 1) s it h] at hr
      rw [fwdAdvance_pos (f + 2) s it h]
      exact hr
    · have hb : it.block = 0 := by omega
      rw [fwdAdvance_step f s it hb] at hr
      rw [fwdAdvance_step (f + 1) s it hb]
      by_cases hgrow : it.iEndBlock ≤ (it.iBlock + 1) % W64
      · rw [if_pos hgrow] at hr ⊢
        exact ih _ _ r hr
      · rw [if_neg hgrow] at hr ⊢
        exact ih _ _ r hr

theorem fwdAdvance_mono_le : ∀ fuel2 fuel, fuel ≤ fuel2 →
    ∀ s it r, fwdAdvance fuel s it = some r → fwdAdvance fuel2 s it = some r := by
  intro fuel2
  induction fuel2 with
  | zero =>
    intro fuel hle s it r hr
    rw [Nat.le_zero.mp hle] at hr
    exact hr
  | succ f ih =>
    intro fuel hle s it r hr
    rcases Nat.eq_or_lt_of_le hle with he | hlt
    · rw [he] at hr
      exact hr
    · exact fwdAdvance_mono f s it r (ih fuel (by omega) s it r hr)

theorem exists_testBit_of_ne_zero {b : Nat} (hb : b < W64) (hne : b ≠ 0) :
    ∃ j, j < 64 ∧ b.testBit j = true := by
  by_contra hnone
  push_neg at hnone
  apply hne
  apply Nat.zero_of_testBit_eq_false
  intro i
  by_cases hi : i < 64
  · cases h : b.testBit i
    · rfl
    · exact absurd h (by simp [hnone i hi])
  · apply Nat.testBit_lt_two_pow
    calc b < W64 := hb
    _ = 2 ^ 64 := rfl
    _ ≤ 2 ^ i := Nat.pow_le_pow_right (by norm_num) (by omega)

/-- When the forward scan's word has a surviving set bit, the lowest one
is exactly the target clear bit `g`. -/
theorem fwd_stop {s : SieveState} {it : FwdIt} {G g : Nat} (hinv : FwdLoopInv s it G)
    (hgclear : sieveBitSet g = false) (hGg : G ≤ g)
    (hcert : ∀ h, G ≤ h → h < g → sieveBitSet h = true) (hblk : it.block ≠ 0) :
    g / 64 = it.iBlock ∧ ctz64 it.block = g % 64 := by
  obtain ⟨hwf, hps, hend, hlt, hblt, hr1, hr2, hchar⟩ := hinv
  obtain ⟨j0, hj0, hbit0⟩ := exists_testBit_of_ne_zero hblt hblk
  have hc0 := hchar j0 hj0
  rw [hbit0] at hc0
  have hGpos : G ≤ 64 * it.iBlock + j0 := by
    by_contra hno
    simp [hno] at hc0
  have hclr0 : sieveBitSet (64 * it.iBlock + j0) = false := by
    cases hb : sieveBitSet (64 * it.iBlock + j0)
    · rfl
    · rw [hb] at hc0
      simp [hGpos] at hc0
  have hpos : g ≤ 64 * it.iBlock + j0 := by
    by_contra hlt2
    have := hcert (64 * it.iBlock + j0) hGpos (by omega)
    rw [hclr0] at this
    exact Bool.false_ne_true this
  have hgword : g < 64 * it.iBlock + 64 := by omega
  have hgge : 64 * it.iBlock ≤ g := by omega
  have hgdiv : g / 64 = it.iBlock := by omega
  refine ⟨hgdiv, ?_⟩
  apply ctz64_eq
  · omega
  · have := hchar (g % 64) (by omega)
    rw [show 64 * it.iBlock + g % 64 = g from by omega, hgclear] at this
    rw [this]
    simp
    omega
  · intro i hi
    have hchar2 := hchar i (by omega)
    rw [hchar2]
    by_cases hGi : G ≤ 64 * it.iBlock + i
    · rw [hcert (64 * it.iBlock + i) hGi (by omega)]
      simp
    · simp [hGi]

/-- At the stop position, the invariant transfers to the new frontier
`g`. -/
theorem fwd_stop_inv {s : SieveState} {it : FwdIt} {G g : Nat} (hinv : FwdLoopInv s it G)
    (hgclear : sieveBitSet g = false) (hGg : G ≤ g)
    (hcert : ∀ h, G ≤ h → h < g → sieveBitSet h = true) (hgdiv : g / 64 = it.iBlock) :
    FwdLoopInv s { it with x := recoverX it.iBlock (ctz64 it.block) } g := by
  obtain ⟨hwf, hps, hend, hlt, hblt, hr1, hr2, hchar⟩ := hinv
  refine ⟨hwf, hps, hend, hlt, hblt, ?_, ?_, ?_⟩
  · show 64 * it.iBlock ≤ g
    omega
  · show g ≤ 64 * it.iBlock + 64
    omega
  · intro j hj
    show it.block.testBit j = (decide (g ≤ 64 * it.iBlock + j) && !sieveBitSet (64 * it.iBlock + j))
    rw [hchar j hj]
    by_cases hjg : g ≤ 64 * it.iBlock + j
    · simp [show G ≤ 64 * it.iBlock + j from by omega, hjg]
    · rw [decide_eq_false (by omega : ¬(g ≤ 64 * it.iBlock + j)), Bool.false_and]
      by_cases hGj : G ≤ 64 * it.iBlock + j
      · rw [hcert (64 * it.iBlock + j) hGj (by omega)]
        simp
      · rw [decide_eq_false hGj, Bool.false_and]

/-- A freshly loaded word at the start of its own frontier. -/
theorem fwdLoopInv_newWord (s : SieveState) (hwf : WellFormed s) (bm : Nat → Nat)
    (hbm : bm = s.pSieve) (iB iEnd xv : Nat)
    (hEnd : iEnd = kBlocksPerSeg * s.numSegsComputed) (hlt : iB < iEnd) :
    FwdLoopInv s
      { pSieve := bm, block := compl64 (bm iB), iBlock := iB, iEndBlock := iEnd, x := xv }
      (64 * iB) := by
  have hword : bm iB = sieveWord iB := by
    rw [hbm]
    exact hwf iB (by omega)
  refine ⟨hwf, hbm, hEnd, hlt, ?_, ?_, ?_, ?_⟩
  · show compl64 (bm iB) < W64
    rw [hword]
    exact compl64_lt _ (sieveWord_lt _)
  · show 64 * iB ≤ 64 * iB
    exact Nat.le_refl _
  · show 64 * iB ≤ 64 * iB + 64
    omega
  · intro j hj
    show (compl64 (bm iB)).testBit j =
      (decide (64 * iB ≤ 64 * iB + j) && !sieveBitSet (64 * iB + j))
    rw [hword, testBit_compl64 _ _ hj, testBit_sieveWord _ _ hj]
    simp

/-- `FwdIterator::AdvanceInternal` stops exactly at the first clear bit at
or beyond the frontier, growing the sieve as needed, provided the fuel
covers the distance in words. -/
theorem fwdAdvance_found (g : Nat) (hgclear : sieveBitSet g = false) :
    ∀ fuel s it G, FwdLoopInv s it G → G ≤ g →
      (∀ h, G ≤ h → h < g → sieveBitSet h = true) →
      g / 64 ≤ it.iBlock + fuel →
      g / 64 + 1 < W64 →
      ∃ s2 it2, fwdAdvance fuel s it = some (s2, it2) ∧
        FwdLoopInv s2 it2 g ∧ it2.iBlock = g / 64 ∧
        it2.x = recoverX (g / 64) (g % 64) := by
  intro fuel
  induction fuel with
  | zero =>
    intro s it G hinv hGg hcert hfuel hW
    have hblk : it.block ≠ 0 := by
      intro hb0
      have hgbig : ¬(g < 64 * (it.iBlock + 1)) := by
        intro hlt2
        have hgge : 64 * it.iBlock ≤ g := by
          have := hinv.2.2.2.2.2.1
          omega
        have := hinv.2.2.2.2.2.2.2 (g - 64 * it.iBlock) (by omega)
        rw [hb0, Nat.zero_testBit, show 64 * it.iBlock + (g - 64 * it.iBlock) = g from by omega,
          hgclear] at this
        simp [hGg] at this
      omega
    obtain ⟨hgdiv, hctz⟩ := fwd_stop hinv hgclear hGg hcert hblk
    refine ⟨s, _, fwdAdvance_pos 0 s it hblk, fwd_stop_inv hinv hgclear hGg hcert hgdiv, ?_, ?_⟩
    · exact hgdiv.symm
    · rw [hctz, hgdiv]
  | succ f ih =>
    intro s it G hinv hGg hcert hfuel hW
    by_cases hblk : it.block ≠ 0
    · obtain ⟨hgdiv, hctz⟩ := fwd_stop hinv hgclear hGg hcert hblk
      refine ⟨s, _, fwdAdvance_pos (f + 1) s it hblk,
        fwd_stop_inv hinv hgclear hGg hcert hgdiv, ?_, ?_⟩
      · exact hgdiv.symm
      · show recoverX it.iBlock (ctz64 it.block) = recoverX (g / 64) (g % 64)
        rw [hctz, hgdiv]
    · have hb0 : it.block = 0 := by omega
      obtain ⟨hwf, hps, hend, hlt, hblt, hr1, hr2, hchar⟩ := hinv
      have hgbig : 64 * (it.iBlock + 1) ≤ g := by
        by_contra hlt2
        have hgge : 64 * it.iBlock ≤ g := by omega
        have hx := hchar (g - 64 * it.iBlock) (by omega)
        rw [hb0, Nat.zero_testBit, show 64 * it.iBlock + (g - 64 * it.iBlock) = g from by omega,
          hgclear] at hx
        simp [hGg] at hx
      have hfuel2 : it.iBlock + 1 ≤ g / 64 := by omega
      have hiBmod : (it.iBlock + 1) % W64 = it.iBlock + 1 := Nat.mod_eq_of_lt (by omega)
      rw [fwdAdvance_step f s it hb0, hiBmod]
      have hcert2 : ∀ h, 64 * (it.iBlock + 1) ≤ h → h < g → sieveBitSet h = true :=
        fun h h1 h2 => hcert h (by omega) h2
      by_cases hgrow : it.iEndBlock ≤ it.iBlock + 1
      · rw [if_pos hgrow]
        set s2 := GrowToInternal s (s.numSegsComputed + 1) with hs2def
        have hcomp2 : s2.numSegsComputed = s.numSegsComputed + 1 := by
          rw [hs2def, GrowToInternal_numSegsComputed]
          omega
        have hwf2 : WellFormed s2 := WellFormed_GrowToInternal hwf _
        have hiBlt : it.iBlock + 1 < kBlocksPerSeg * s2.numSegsComputed := by
          rw [hcomp2, kBlocksPerSeg_eq]
          rw [hend, kBlocksPerSeg_eq] at hlt
          omega
        have hinv2 := fwdLoopInv_newWord s2 hwf2 s2.pSieve rfl (it.iBlock + 1)
          (kBlocksPerSeg * s2.numSegsComputed) it.x rfl hiBlt
        obtain ⟨s3, it3, heq, h1, h2, h3⟩ := ih s2 _ (64 * (it.iBlock + 1)) hinv2 hgbig
          hcert2 (by show g / 64 ≤ it.iBlock + 1 + f; omega) hW
        exact ⟨s3, it3, heq, h1, h2, h3⟩
      · rw [if_neg hgrow]
        have hiBlt : it.iBlock + 1 < it.iEndBlock := by omega
        have hinv2 := fwdLoopInv_newWord s hwf it.pSieve hps (it.iBlock + 1)
          it.iEndBlock it.x hend hiBlt
        obtain ⟨s3, it3, heq, h1, h2, h3⟩ := ih s _ (64 * (it.iBlock + 1)) hinv2 hgbig
          hcert2 (by show g / 64 ≤ it.iBlock + 1 + f; omega) hW
        exact ⟨s3, it3, heq, h1, h2, h3⟩

/-- The iterator has just produced the candidate of the clear bit `g`. -/
def FwdYieldState (s : SieveState) (it : FwdIt) (g : Nat) : Prop :=
  FwdLoopInv s it g ∧ it.iBlock = g / 64 ∧ it.x = recoverX (g / 64) (g % 64) ∧
    sieveBitSet g = false

theorem fwdSucc_block_inv (s : SieveState) (it : FwdIt) (g : Nat)
    (hy : FwdYieldState s it g) :
    FwdLoopInv s { it with block := it.block &&& ((it.block + (W64 - 1)) % W64) } (g + 1) := by
  obtain ⟨⟨hwf, hps, hend, hlt, hblt, hr1, hr2, hchar⟩, hiB, hx, hclear⟩ := hy
  have hpos : 64 * it.iBlock + g % 64 = g := by
    rw [hiB]
    omega
  have hbitg : it.block.testBit (g % 64) = true := by
    have := hchar (g % 64) (by omega)
    rw [hpos, hclear] at this
    rw [this]
    simp
  have hmin : ∀ i, i < g % 64 → it.block.testBit i = false := by
    intro i hi
    have := hchar i (by omega)
    rw [this]
    simp [show ¬(g ≤ 64 * it.iBlock + i) from by omega]
  have hne : it.block ≠ 0 := by
    intro h0
    rw [h0, Nat.zero_testBit] at hbitg
    exact Bool.false_ne_true hbitg
  have hsub : (it.block + (W64 - 1)) % W64 = it.block - 1 := add_w64_sub_one_mod it.block hne hblt
  have hbits := and_sub_one_testBit it.block (g % 64) hbitg hmin
  refine ⟨hwf, hps, hend, hlt, ?_, ?_, ?_, ?_⟩
  · show it.block &&& ((it.block + (W64 - 1)) % W64) < W64
    exact Nat.and_lt_two_pow _ (by rw [hsub]; show it.block - 1 < W64; omega)
  · show 64 * it.iBlock ≤ g + 1
    omega
  · show g + 1 ≤ 64 * it.iBlock + 64
    omega
  · intro j hj
    show (it.block &&& ((it.block + (W64 - 1)) % W64)).testBit j =
      (decide (g + 1 ≤ 64 * it.iBlock + j) && !sieveBitSet (64 * it.iBlock + j))
    rw [hsub, hbits j, hchar j hj]
    by_cases hje : j = g % 64
    · subst hje
      rw [hpos, hclear]
      simp
    · have hde : (decide (g ≤ 64 * it.iBlock + j) : Bool) =
          decide (g + 1 ≤ 64 * it.iBlock + j) := by
        rw [decide_eq_decide]
        omega
      rw [hde]
      simp [hje]

theorem fwdSucc_yield (s : SieveState) (it : FwdIt) (g g2 : Nat)
    (hy : FwdYieldState s it g) (hg2clear : sieveBitSet g2 = false) (hgg : g < g2)
    (hcert : ∀ h, g < h → h < g2 → sieveBitSet h = true) (hW : g2 / 64 + 1 < W64) :
    ∀ fuel, g2 / 64 ≤ fuel →
      ∃ s2 it2, fwdSucc fuel s it = some (s2, it2) ∧ FwdYieldState s2 it2 g2 := by
  intro fuel hfuel
  have hinv2 := fwdSucc_block_inv s it g hy
  obtain ⟨s2, it2, heq, h1, h2, h3⟩ := fwdAdvance_found g2 hg2clear fuel s
    { it with block := it.block &&& ((it.block + (W64 - 1)) % W64) } (g + 1) hinv2
    (by omega) (fun h ha hb => hcert h (by omega) hb)
    (by show g2 / 64 ≤ it.iBlock + fuel; omega) hW
  exact ⟨s2, it2, heq, h1, h2, h3, hg2clear⟩

/-! ## The chain of successive primes -/

/-- Iterated `leastPrimeGT`, starting from `p` itself. -/
def primeChain (p : Nat) : Nat → Nat
  | 0 => p
  | k + 1 => leastPrimeGT (primeChain p k)

/-- The `k`-th prime strictly greater than `x`. -/
def nthPrimeFrom (x k : Nat) : Nat := primeChain (leastPrimeGT x) k

theorem primeChain_shift (p : Nat) : ∀ k, primeChain p (k + 1) = primeChain (leastPrimeGT p) k := by
  intro k
  induction k with
  | zero => rfl
  | succ k ih =>
    show leastPrimeGT (primeChain p (k + 1)) = leastPrimeGT (primeChain (leastPrimeGT p) k)
    rw [ih]

theorem primeChain_prime (p : Nat) (hp : Nat.Prime p) : ∀ k, Nat.Prime (primeChain p k) := by
  intro k
  induction k with
  | zero => exact hp
  | succ k ih => exact leastPrimeGT_prime _

theorem primeChain_lt_succ (p k : Nat) : primeChain p k < primeChain p (k + 1) :=
  leastPrimeGT_gt _

theorem primeChain_le_of_le (p : Nat) : ∀ k k2, k ≤ k2 → primeChain p k ≤ primeChain p k2 := by
  intro k k2
  induction k2 with
  | zero =>
    intro h
    rw [Nat.le_zero.mp h]
  | succ m ih =>
    intro h
    rcases Nat.eq_or_lt_of_le h with he | hlt
    · rw [he]
    · calc primeChain p k ≤ primeChain p m := ih (by omega)
      _ ≤ primeChain p (m + 1) := Nat.le_of_lt (primeChain_lt_succ p m)

theorem primeChain_odd (p : Nat) (h3 : 3 ≤ p) (hodd : p % 2 = 1) :
    ∀ k, 3 ≤ primeChain p k ∧ primeChain p k % 2 = 1 := by
  intro k
  induction k with
  | zero => exact ⟨h3, hodd⟩
  | succ k ih =>
    have hgt := leastPrimeGT_gt (primeChain p k)
    have hodd2 := leastPrimeGT_odd (primeChain p k) (by omega)
    exact ⟨by show 3 ≤ leastPrimeGT (primeChain p k); omega, hodd2⟩

/-- Completeness: every prime above `x` occurs in the chain. -/
theorem nthPrimeFrom_complete (x : Nat) : ∀ p, Nat.Prime p → x < p →
    ∃ j, nthPrimeFrom x j = p := by
  intro p
  induction p using Nat.strong_induction_on with
  | _ p ih =>
    intro hp hxp
    by_cases h0 : p = leastPrimeGT x
    · exact ⟨0, h0.symm⟩
    · have hlt : leastPrimeGT x < p := by
        have := leastPrimeGT_min x p hxp hp
        omega
      set r := Nat.findGreatest (fun q => x < q ∧ Nat.Prime q) (p - 1) with hrdef
      have hrspec : x < r ∧ Nat.Prime r := by
        rw [hrdef]
        exact Nat.findGreatest_spec (P := fun q => x < q ∧ Nat.Prime q)
          (m := leastPrimeGT x) (by omega) ⟨leastPrimeGT_gt x, leastPrimeGT_prime x⟩
      have hrle : r ≤ p - 1 := Nat.findGreatest_le (p - 1)
      obtain ⟨j, hj⟩ := ih r (by omega) hrspec.2 hrspec.1
      refine ⟨j + 1, ?_⟩
      have hstep : nthPrimeFrom x (j + 1) = leastPrimeGT (nthPrimeFrom x j) := rfl
      rw [hstep, hj]
      have h1 : leastPrimeGT r ≤ p := leastPrimeGT_min r p (by omega) hp
      have h2 := leastPrimeGT_gt r
      have h3 := leastPrimeGT_prime r
      by_contra hne
      have hlt2 : leastPrimeGT r < p := by omega
      have hgr := Nat.findGreatest_is_greatest (P := fun q => x < q ∧ Nat.Prime q)
        (k := leastPrimeGT r) (n := p - 1) (by rw [← hrdef]; omega) (by omega)
      exact hgr ⟨by omega, h3⟩

/-- Bridging lemma for one forward step: after yielding the odd prime `p`
at its packed position, the next clear bit is the packed position of
`leastPrimeGT p`. -/
theorem fwd_step_bridge (p : Nat) (hp : Nat.Prime p) (hodd : p % 2 = 1) (h3 : 3 ≤ p) :
    sieveBitSet (segSpaceOfNative (leastPrimeGT p / 2)) = false ∧
      segSpaceOfNative (p / 2) < segSpaceOfNative (leastPrimeGT p / 2) ∧
      (∀ h, segSpaceOfNative (p / 2) < h → h < segSpaceOfNative (leastPrimeGT p / 2) →
        sieveBitSet h = true) ∧
      2 * (leastPrimeGT p / 2) + 1 = leastPrimeGT p ∧
      leastPrimeGT p % 2 = 1 ∧ 3 ≤ leastPrimeGT p ∧ Nat.Prime (leastPrimeGT p) := by
  have hlpodd := leastPrimeGT_odd p (by omega)
  have hlpgt := leastPrimeGT_gt p
  have hlpp := leastPrimeGT_prime p
  have heq : 2 * (leastPrimeGT p / 2) + 1 = leastPrimeGT p := by omega
  refine ⟨(sieveBitSet_eq_false_iff_prime _).mpr ⟨_, rfl, by rw [heq]; exact hlpp⟩,
    segSpaceOfNative_strictMono (by omega), ?_, heq, hlpodd, by omega, hlpp⟩
  intro h h1 h2
  by_contra hcl
  have hcl2 : sieveBitSet h = false := by
    cases hb : sieveBitSet h
    · rfl
    · exact absurd hb hcl
  obtain ⟨m, rfl, hq⟩ := (sieveBitSet_eq_false_iff_prime _).mp hcl2
  have hm1 : p / 2 < m := by
    by_contra hle
    have := segSpaceOfNative_strictMono.monotone (show m ≤ p / 2 by omega)
    omega
  have hm2 : m < leastPrimeGT p / 2 := by
    by_contra hge
    have := segSpaceOfNative_strictMono.monotone (show leastPrimeGT p / 2 ≤ m by omega)
    omega
  have := leastPrimeGT_min p (2 * m + 1) (by omega) hq
  omega

theorem segSpace_div64_bound (n : Nat) (h : n < W64) : segSpaceOfNative n / 64 + 1 < W64 := by
  have hseg : segSpaceOfNative n = n + kUnusedBitsPerSeg * (n / kBitsPerSeg) := rfl
  rw [hseg]
  simp only [W64, kUnusedBitsPerSeg_eq, kBitsPerSeg_eq] at h ⊢
  omega

theorem FwdYieldState_x (s : SieveState) (it : FwdIt) (p : Nat) (hodd : p % 2 = 1)
    (hy : FwdYieldState s it (segSpaceOfNative (p / 2))) : it.x = p := by
  have h := hy.2.2.1
  rw [recoverX_segSpace] at h
  omega

theorem leastPrimeGT_of_lt_two (x : Nat) (h : x < 2) : leastPrimeGT x = 2 := by
  have h1 := leastPrimeGT_min x 2 h Nat.prime_two
  have h2 := (leastPrimeGT_prime x).two_le
  omega

theorem leastPrimeGT_two : leastPrimeGT 2 = 3 := by
  have h1 := leastPrimeGT_min 2 3 (by omega) Nat.prime_three
  have h2 := leastPrimeGT_gt 2
  have h3 := leastPrimeGT_odd 2 (by omega)
  omega

theorem nthPrimeFrom_zero_one : nthPrimeFrom 0 1 = 3 := by
  show leastPrimeGT (primeChain (leastPrimeGT 0) 0) = 3
  show leastPrimeGT (leastPrimeGT 0) = 3
  rw [leastPrimeGT_of_lt_two 0 (by omega), leastPrimeGT_two]

/-- Running `operator++` `k` times from the yield of odd prime `p` yields
the `k`-th element of the prime chain. -/
theorem fwdRun_chain : ∀ k p, Nat.Prime p → p % 2 = 1 → 3 ≤ p →
    ∀ s it, FwdYieldState s it (segSpaceOfNative (p / 2)) →
      primeChain p k < W64 →
      ∃ fuel0, ∀ fuel, fuel0 ≤ fuel →
        ∃ s2 it2, fwdRun fuel s it k = some (s2, it2) ∧
          FwdYieldState s2 it2 (segSpaceOfNative (primeChain p k / 2)) := by
  intro k
  induction k with
  | zero =>
    intro p hp hodd h3 s it hy hlt
    exact ⟨0, fun fuel _ => ⟨s, it, rfl, hy⟩⟩
  | succ k ih =>
    intro p hp hodd h3 s it hy hlt
    obtain ⟨hclear2, hmono2, hcert2, heq2, hodd2, h32, hp2⟩ := fwd_step_bridge p hp hodd h3
    have hlpW : leastPrimeGT p < W64 := by
      have h1 : primeChain p 1 ≤ primeChain p (k + 1) := primeChain_le_of_le p 1 (k + 1) (by omega)
      have h2 : primeChain p 1 = leastPrimeGT p := rfl
      omega
    have hWdiv : segSpaceOfNative (leastPrimeGT p / 2) / 64 + 1 < W64 :=
      segSpace_div64_bound _ (by omega)
    obtain ⟨s1, it1, hstep, hy1⟩ := fwdSucc_yield s it _ _ hy hclear2 hmono2 hcert2 hWdiv
      (segSpaceOfNative (leastPrimeGT p / 2) / 64) (le_refl _)
    have hshift : primeChain p (k + 1) = primeChain (leastPrimeGT p) k := primeChain_shift p k
    obtain ⟨fuel0, hfuel0⟩ := ih (leastPrimeGT p) hp2 hodd2 h32 s1 it1 hy1
      (by rw [← hshift]; exact hlt)
    refine ⟨max (segSpaceOfNative (leastPrimeGT p / 2) / 64) fuel0, fun fuel hf => ?_⟩
    have hstep2 : fwdSucc fuel s it = some (s1, it1) :=
      fwdAdvance_mono_le fuel (segSpaceOfNative (leastPrimeGT p / 2) / 64)
        (le_trans (le_max_left _ _) hf) _ _ _ hstep
    obtain ⟨s2, it2, hrun, hy2⟩ := hfuel0 fuel (le_trans (le_max_right _ _) hf)
    refine ⟨s2, it2, ?_, by rw [hshift]; exact hy2⟩
    show fwdRun fuel s it (k + 1) = some (s2, it2)
    simp only [fwdRun, hstep2]
    exact hrun

/-- The freshly built from-`x` iterator record (word masked below the start
bit) satisfies the loop invariant at its start frontier. -/
theorem fwdLoopInv_maskStart (s : SieveState) (hwf : WellFormed s) (bm : Nat → Nat)
    (hbm : bm = s.pSieve) (G iEnd xv : Nat)
    (hEnd : iEnd = kBlocksPerSeg * s.numSegsComputed) (hlt : G / 64 < iEnd) :
    FwdLoopInv s
      { pSieve := bm
        block := compl64 (bm (G >>> 6)) &&& (((W64 - 1) <<< mask6 G) % W64)
        iBlock := G >>> 6, iEndBlock := iEnd, x := xv } G := by
  have h6 : G >>> 6 = G / 64 := by
    rw [Nat.shiftRight_eq_div_pow]
  have hword : bm (G / 64) = sieveWord (G / 64) := by
    rw [hbm]
    exact hwf _ (hEnd ▸ hlt)
  have hWpos : 0 < W64 := by norm_num [W64]
  refine ⟨hwf, hbm, hEnd, ?_, ?_, ?_, ?_, ?_⟩
  · show G >>> 6 < iEnd
    rw [h6]
    exact hlt
  · show compl64 (bm (G >>> 6)) &&& (((W64 - 1) <<< mask6 G) % W64) < W64
    exact Nat.and_lt_two_pow _ (Nat.mod_lt _ hWpos)
  · show 64 * (G >>> 6) ≤ G
    rw [h6]
    omega
  · show G ≤ 64 * (G >>> 6) + 64
    rw [h6]
    omega
  · intro j hj
    show (compl64 (bm (G >>> 6)) &&& (((W64 - 1) <<< mask6 G) % W64)).testBit j =
      (decide (G ≤ 64 * (G >>> 6) + j) && !sieveBitSet (64 * (G >>> 6) + j))
    rw [h6, Nat.testBit_and, testBit_ones_shl _ j hj, mask6_eq_mod, hword,
      testBit_compl64 _ j hj, testBit_sieveWord _ j hj]
    have hd : (decide (G % 64 ≤ j) : Bool) = decide (G ≤ 64 * (G / 64) + j) := by
      rw [decide_eq_decide]
      omega
    rw [hd, Bool.and_comm]

/-- Entry lemma for `FwdIterator(sieve, x)` with `2 ≤ x`: the constructor
lands on the yield of `leastPrimeGT x`. -/
theorem fwdIterFrom_entry (s : SieveState) (hwf : WellFormed s) (x : Nat)
    (h2 : 2 ≤ x) (hx : x + 1 < W64) (hW : leastPrimeGT x < W64) :
    ∃ s2 it2, (∀ fuel, segSpaceOfNative (leastPrimeGT x / 2) / 64 ≤ fuel →
        fwdIterFrom fuel s x = some (s2, it2)) ∧
      FwdYieldState s2 it2 (segSpaceOfNative (leastPrimeGT x / 2)) := by
  obtain ⟨hclear, hge, hcert, heqx⟩ := fwd_bridge x h2
  have hsr : ((x + 1) % W64) >>> 1 = (x + 1) / 2 := by
    rw [Nat.mod_eq_of_lt hx, Nat.shiftRight_eq_div_pow, pow_one]
  set n := (x + 1) / 2 with hn
  set s1 := if s.numSegsComputed ≤ n / kBitsPerSeg then GrowToInternal s (n / kBitsPerSeg + 1)
    else s with hs1def
  set G0 := segSpaceOfNative n with hG0
  set it0 : FwdIt :=
    { pSieve := s1.pSieve,
      block := compl64 (s1.pSieve (G0 >>> 6)) &&& (((W64 - 1) <<< mask6 G0) % W64),
      iBlock := G0 >>> 6, iEndBlock := kBlocksPerSeg * s1.numSegsComputed, x := x } with hit0
  have hEq : ∀ fuel, fwdIterFrom fuel s x = fwdAdvance fuel s1 it0 := by
    intro fuel
    rw [hit0, hs1def, hG0]
    show fwdIterFrom fuel s x = _
    simp only [fwdIterFrom, hsr]
    rfl
  have hstuff : n / kBitsPerSeg < s1.numSegsComputed ∧ WellFormed s1 := by
    by_cases hc : s.numSegsComputed ≤ n / kBitsPerSeg
    · rw [hs1def, if_pos hc]
      exact ⟨by rw [GrowToInternal_numSegsComputed]; omega, WellFormed_GrowToInternal hwf _⟩
    · rw [hs1def, if_neg hc]
      exact ⟨by omega, hwf⟩
  have hinv0 : FwdLoopInv s1 it0 G0 := by
    rw [hit0]
    exact fwdLoopInv_maskStart s1 hstuff.2 s1.pSieve rfl G0 _ x rfl
      (segSpace_div64_lt n _ hstuff.1)
  obtain ⟨s2, it2, hadv, hinv, hiB, hx2⟩ := fwdAdvance_found
    (segSpaceOfNative (leastPrimeGT x / 2)) hclear
    (segSpaceOfNative (leastPrimeGT x / 2) / 64) s1 it0 G0 hinv0 hge hcert
    (by omega) (segSpace_div64_bound _ (by omega))
  refine ⟨s2, it2, fun fuel hfuel => ?_, hinv, hiB, hx2, hclear⟩
  rw [hEq fuel]
  exact fwdAdvance_mono_le fuel _ hfuel _ _ _ hadv

/-- The first `operator++` on a begin-constructed iterator (sentinel
`m_iBlock = ~0ULL`, `m_block = 0`) wraps to block 0 (growing the sieve if
nothing is computed yet) and lands on the yield of the prime 3. -/
theorem fwdBegin_succ (s : SieveState) (hwf : WellFormed s) :
    ∃ s1 it1, (∀ fuel, 1 ≤ fuel → fwdSucc fuel s (fwdIterBegin s) = some (s1, it1)) ∧
      FwdYieldState s1 it1 (segSpaceOfNative (3 / 2)) := by
  have hg : segSpaceOfNative (3 / 2) = 1 := by decide
  have hclear : sieveBitSet 1 = false := by decide
  have hcert : ∀ h, 0 ≤ h → h < 1 → sieveBitSet h = true := by
    intro h _ hh
    have h0 : h = 0 := by omega
    subst h0
    exact sieveBitSet_zero
  have hrec : ({ pSieve := (fwdIterBegin s).pSieve,
                 block := (fwdIterBegin s).block &&&
                   (((fwdIterBegin s).block + (W64 - 1)) % W64),
                 iBlock := (fwdIterBegin s).iBlock,
                 iEndBlock := (fwdIterBegin s).iEndBlock,
                 x := (fwdIterBegin s).x } : FwdIt) =
      { pSieve := s.pSieve, block := 0, iBlock := W64 - 1,
        iEndBlock := kBlocksPerSeg * s.numSegsComputed, x := 2 } := by
    show ({ pSieve := s.pSieve, block := 0 &&& ((0 + (W64 - 1)) % W64), iBlock := W64 - 1,
            iEndBlock := kBlocksPerSeg * s.numSegsComputed, x := 2 } : FwdIt) = _
    rw [Nat.zero_and]
  have hib : ({ pSieve := s.pSieve, block := 0, iBlock := W64 - 1,
                iEndBlock := kBlocksPerSeg * s.numSegsComputed,
                x := 2 } : FwdIt).iBlock + 1 = W64 := by
    show W64 - 1 + 1 = W64
    norm_num [W64]
  by_cases hc : s.numSegsComputed = 0
  · -- first wrap runs off the computed region: grow by one segment
    have hcond : ({ pSieve := s.pSieve, block := 0, iBlock := W64 - 1,
                    iEndBlock := kBlocksPerSeg * s.numSegsComputed,
                    x := 2 } : FwdIt).iEndBlock ≤
        ((({ pSieve := s.pSieve, block := 0, iBlock := W64 - 1,
             iEndBlock := kBlocksPerSeg * s.numSegsComputed,
             x := 2 } : FwdIt).iBlock + 1) % W64) := by
      show kBlocksPerSeg * s.numSegsComputed ≤ (W64 - 1 + 1) % W64
      rw [hc]
      simp
    have hwfG : WellFormed (GrowToInternal s (s.numSegsComputed + 1)) :=
      WellFormed_GrowToInternal hwf _
    have hcompG : 0 < (GrowToInternal s (s.numSegsComputed + 1)).numSegsComputed := by
      rw [GrowToInternal_numSegsComputed]
      omega
    have hinvG := fwdLoopInv_newWord (GrowToInternal s (s.numSegsComputed + 1)) hwfG
      (GrowToInternal s (s.numSegsComputed + 1)).pSieve rfl 0
      (kBlocksPerSeg * (GrowToInternal s (s.numSegsComputed + 1)).numSegsComputed) 2 rfl
      (Nat.mul_pos (by rw [kBlocksPerSeg_eq]; omega) hcompG)
    obtain ⟨s2, it2, hadv, hinv, hiB, hx2⟩ := fwdAdvance_found 1 hclear 0
      (GrowToInternal s (s.numSegsComputed + 1))
      { pSieve := (GrowToInternal s (s.numSegsComputed + 1)).pSieve,
        block := compl64 ((GrowToInternal s (s.numSegsComputed + 1)).pSieve 0),
        iBlock := 0,
        iEndBlock := kBlocksPerSeg * (GrowToInternal s (s.numSegsComputed + 1)).numSegsComputed,
        x := 2 } 0
      (by rw [Nat.mul_zero] at hinvG; exact hinvG) (by omega) hcert
      (by show 1 / 64 ≤ 0 + 0; norm_num) (by norm_num [W64])
    refine ⟨s2, it2, fun fuel hfuel => ?_, by rw [hg]; exact ⟨hinv, hiB, hx2, hclear⟩⟩
    apply fwdAdvance_mono_le fuel 1 hfuel
    rw [hrec, fwdAdvance_step 0 s _ rfl, if_pos hcond, hib, Nat.mod_self]
    exact hadv
  · -- at least one segment is already computed: just load word 0
    have hcond : ¬(({ pSieve := s.pSieve, block := 0, iBlock := W64 - 1,
                      iEndBlock := kBlocksPerSeg * s.numSegsComputed,
                      x := 2 } : FwdIt).iEndBlock ≤
        ((({ pSieve := s.pSieve, block := 0, iBlock := W64 - 1,
             iEndBlock := kBlocksPerSeg * s.numSegsComputed,
             x := 2 } : FwdIt).iBlock + 1) % W64)) := by
      show ¬(kBlocksPerSeg * s.numSegsComputed ≤ (W64 - 1 + 1) % W64)
      have hm0 : (W64 - 1 + 1) % W64 = 0 := by
        simp only [W64]
        omega
      rw [hm0, kBlocksPerSeg_eq]
      omega
    have hinvS := fwdLoopInv_newWord s hwf s.pSieve rfl 0
      (kBlocksPerSeg * s.numSegsComputed) 2 rfl
      (Nat.mul_pos (by rw [kBlocksPerSeg_eq]; omega) (by omega))
    obtain ⟨s2, it2, hadv, hinv, hiB, hx2⟩ := fwdAdvance_found 1 hclear 0 s
      { pSieve := s.pSieve,
        block := compl64 (s.pSieve 0),
        iBlock := 0,
        iEndBlock := kBlocksPerSeg * s.numSegsComputed,
        x := 2 } 0
      (by rw [Nat.mul_zero] at hinvS; exact hinvS) (by omega) hcert
      (by show 1 / 64 ≤ 0 + 0; norm_num) (by norm_num [W64])
    refine ⟨s2, it2, fun fuel hfuel => ?_, by rw [hg]; exact ⟨hinv, hiB, hx2, hclear⟩⟩
    apply fwdAdvance_mono_le fuel 1 hfuel
    rw [hrec, fwdAdvance_step 0 s _ rfl, if_neg hcond, hib, Nat.mod_self]
    exact hadv

/-- **C2** (corrected).  For every `x` with `x + 1 < 2^64`, iterating
`IterateForwardFrom(x)` yields exactly the primes strictly greater than
`x`, in strictly increasing order, as long as the primes yielded are
representable in 64 bits (`nthPrimeFrom x k < 2^64`): the `k`-th yielded
value is the `k`-th prime above `x`; the first is strictly greater than
`x`; consecutive yields strictly increase; every yield is prime; every
prime above `x` is yielded; if `x < 2` the first value is 2; and
`NextPrime(x)`, the first element, is `nthPrimeFrom x 0 > x`.  The spec's
unconditional claim "`NextPrime(x) > x` strictly for every x" is false at
`x = 2^64 - 1` (see the counterexample), where `(x + 1) >> 1` wraps to 0. -/
theorem claim_forward_iteration (s : SieveState) (hs : WellFormed s) (x k : Nat)
    (hx : x + 1 < W64) (hk : nthPrimeFrom x k < W64) :
    (∃ fuel, fwdNthYield fuel s x k = some (nthPrimeFrom x k)) ∧
      x < nthPrimeFrom x 0 ∧
      nthPrimeFrom x k < nthPrimeFrom x (k + 1) ∧
      Nat.Prime (nthPrimeFrom x k) ∧
      (∀ p, Nat.Prime p → x < p → ∃ j, nthPrimeFrom x j = p) ∧
      (x < 2 → nthPrimeFrom x 0 = 2) ∧
      (∃ fuel s2, NextPrime fuel s x = some (s2, nthPrimeFrom x 0)) := by
  have hp0 : Nat.Prime (leastPrimeGT x) := leastPrimeGT_prime x
  refine ⟨?_, leastPrimeGT_gt x, primeChain_lt_succ _ k, primeChain_prime _ hp0 k,
    nthPrimeFrom_complete x, fun h2 => leastPrimeGT_of_lt_two x h2, ?_⟩
  all_goals by_cases h2x : 2 ≤ x
  -- goal 1, x ≥ 2: constructor entry followed by k increments
  · have hk' : primeChain (leastPrimeGT x) k < W64 := hk
    have hlpW : leastPrimeGT x < W64 := by
      have hle := primeChain_le_of_le (leastPrimeGT x) 0 k (Nat.zero_le k)
      have h0 : primeChain (leastPrimeGT x) 0 = leastPrimeGT x := rfl
      omega
    obtain ⟨s2, it2, hfrom, hy⟩ := fwdIterFrom_entry s hs x h2x hx hlpW
    have hodd0 : leastPrimeGT x % 2 = 1 := leastPrimeGT_odd x h2x
    have h30 : 3 ≤ leastPrimeGT x := by
      have h1 := leastPrimeGT_gt x
      omega
    obtain ⟨fuel0, hrun⟩ := fwdRun_chain k (leastPrimeGT x) hp0 hodd0 h30 s2 it2 hy hk'
    refine ⟨max (segSpaceOfNative (leastPrimeGT x / 2) / 64) fuel0, ?_⟩
    obtain ⟨s3, it3, hrun2, hy3⟩ := hrun _ (le_max_right _ _)
    have hxval : it3.x = primeChain (leastPrimeGT x) k :=
      FwdYieldState_x _ _ _ (primeChain_odd _ h30 hodd0 k).2 hy3
    have h1 : fwdIterFromBegin (max (segSpaceOfNative (leastPrimeGT x / 2) / 64) fuel0) s x =
        some (s2, it2) := by
      simp only [fwdIterFromBegin]
      rw [if_pos h2x]
      exact hfrom _ (le_max_left _ _)
    simp only [fwdNthYield]
    rw [h1]
    show (fwdRun (max (segSpaceOfNative (leastPrimeGT x / 2) / 64) fuel0) s2 it2 k).map
      (fun q => q.2.x) = some (nthPrimeFrom x k)
    rw [hrun2]
    show some it3.x = some (nthPrimeFrom x k)
    rw [hxval]
    rfl
  -- goal 1, x < 2: begin() yields 2, then increments walk the chain from 3
  · have hlp2 : leastPrimeGT x = 2 := leastPrimeGT_of_lt_two x (by omega)
    have hninit : ∀ fuel, fwdIterFromBegin fuel s x = some (s, fwdIterBegin s) := by
      intro fuel
      simp only [fwdIterFromBegin]
      rw [if_neg h2x]
    cases k with
    | zero =>
      refine ⟨0, ?_⟩
      simp only [fwdNthYield]
      rw [hninit 0]
      show some (fwdIterBegin s).x = some (nthPrimeFrom x 0)
      rw [show (fwdIterBegin s).x = 2 from rfl, show nthPrimeFrom x 0 = 2 from hlp2]
    | succ j =>
      have he : nthPrimeFrom x (j + 1) = primeChain 3 j := by
        show primeChain (leastPrimeGT x) (j + 1) = primeChain 3 j
        rw [hlp2, primeChain_shift, leastPrimeGT_two]
      have hk3 : primeChain 3 j < W64 := by
        rw [← he]
        exact hk
      obtain ⟨s1, it1, hsucc1, hy1⟩ := fwdBegin_succ s hs
      obtain ⟨fuel0, hrun⟩ := fwdRun_chain j 3 Nat.prime_three (by norm_num) (le_refl 3)
        s1 it1 hy1 hk3
      obtain ⟨s3, it3, hrun3, hy3⟩ := hrun (max 1 fuel0) (le_max_right _ _)
      refine ⟨max 1 fuel0, ?_⟩
      simp only [fwdNthYield]
      rw [hninit _]
      show (fwdRun (max 1 fuel0) s (fwdIterBegin s) (j + 1)).map (fun q => q.2.x) =
        some (nthPrimeFrom x (j + 1))
      have hstep : fwdSucc (max 1 fuel0) s (fwdIterBegin s) = some (s1, it1) :=
        hsucc1 _ (le_max_left _ _)
      simp only [fwdRun, hstep]
      rw [hrun3]
      show some it3.x = some (nthPrimeFrom x (j + 1))
      have hx3 : it3.x = primeChain 3 j :=
        FwdYieldState_x _ _ _ (primeChain_odd 3 (le_refl 3) rfl j).2 hy3
      rw [hx3, he]
  -- goal 7, x ≥ 2: NextPrime is the constructor's first yield
  · have hk' : primeChain (leastPrimeGT x) k < W64 := hk
    have hlpW : leastPrimeGT x < W64 := by
      have hle := primeChain_le_of_le (leastPrimeGT x) 0 k (Nat.zero_le k)
      have h0 : primeChain (leastPrimeGT x) 0 = leastPrimeGT x := rfl
      omega
    obtain ⟨s2, it2, hfrom, hy⟩ := fwdIterFrom_entry s hs x h2x hx hlpW
    have hodd0 : leastPrimeGT x % 2 = 1 := leastPrimeGT_odd x h2x
    refine ⟨segSpaceOfNative (leastPrimeGT x / 2) / 64, s2, ?_⟩
    have h1 : fwdIterFromBegin (segSpaceOfNative (leastPrimeGT x / 2) / 64) s x =
        some (s2, it2) := by
      simp only [fwdIterFromBegin]
      rw [if_pos h2x]
      exact hfrom _ (le_refl _)
    simp only [NextPrime]
    rw [h1]
    show some (s2, it2.x) = some (s2, nthPrimeFrom x 0)
    rw [FwdYieldState_x s2 it2 (leastPrimeGT x) hodd0 hy]
    rfl
  -- goal 7, x < 2: begin() itself carries m_x = 2
  · have hlp2 : leastPrimeGT x = 2 := leastPrimeGT_of_lt_two x (by omega)
    refine ⟨0, s, ?_⟩
    simp only [NextPrime, fwdIterFromBegin]
    rw [if_neg h2x]
    show some (s, (fwdIterBegin s).x) = some (s, nthPrimeFrom x 0)
    rw [show (fwdIterBegin s).x = 2 from rfl, show nthPrimeFrom x 0 = 2 from hlp2]

theorem claim_forward_iteration_witness :
    WellFormed s0 ∧ 0 + 1 < W64 ∧ nthPrimeFrom 0 1 < W64 ∧
      ((∃ fuel, fwdNthYield fuel s0 0 1 = some (nthPrimeFrom 0 1)) ∧
        0 < nthPrimeFrom 0 0 ∧
        nthPrimeFrom 0 1 < nthPrimeFrom 0 (1 + 1) ∧
        Nat.Prime (nthPrimeFrom 0 1) ∧
        (∀ p, Nat.Prime p → 0 < p → ∃ j, nthPrimeFrom 0 j = p) ∧
        (0 < 2 → nthPrimeFrom 0 0 = 2) ∧
        (∃ fuel s2, NextPrime fuel s0 0 = some (s2, nthPrimeFrom 0 0))) :=
  ⟨WellFormed_s0, by decide, by rw [nthPrimeFrom_zero_one]; decide,
    claim_forward_iteration s0 WellFormed_s0 0 1 (by decide)
      (by rw [nthPrimeFrom_zero_one]; decide)⟩

/-- **C2** counterexample: at `x = 2^64 - 1` the first-candidate
computation `(x + 1) >> 1` wraps to 0 in 64-bit arithmetic, the scan
restarts from the first candidate, and `NextPrime(2^64 - 1)` returns 3,
which is not strictly greater than `x`.  This falsifies the spec's
"`NextPrime(x) > x` strictly" for this `x`. -/
theorem claim_forward_counterexample :
    (NextPrime 0 s0 (W64 - 1)).map (fun p => p.2) = some 3 ∧ ¬(W64 - 1 < 3) := by
  constructor
  · rfl
  · decide

end PrimeSieve
